import Mathlib

set_option maxHeartbeats 1000000

/-
Shallow embedding of burg.hpp, a header-only library for autoregressive (AR)
model estimation: Burg's method (burg_method), the Zohar-Trench Toeplitz
solver (zohar_linear_solve), and the empirical-variance family used by model
order selection.  The generic working precision V is instantiated with the
exact rationals ℚ, matching the library's stated support for exact (rational)
precision.  size_t arithmetic is modelled as ℕ with explicit reduction
mod 2^64 at the one place the code can underflow (the maxorder clamp).
Vector subscripts are modelled with List.getD (the C++ operator[] is
unchecked); a separate Option-valued access is provided where a claim is
about bounds.
-/

/-! # Definitions -/

/-- Model of std::inner_product specialised to + and * over ℚ: a left fold
accumulating init + x*y, driven by the first range and pairing elements of the
second (used by burg.hpp at lines 175, 193, 209 and 328-337, 380). -/
def inner_product : List ℚ → List ℚ → ℚ → ℚ
  | [], _, init => init
  | _ :: _, [], init => init
  | x :: xs, y :: ys, init => inner_product xs ys (init + x * y)

/-! ## Empirical-variance family (burg.hpp lines 487-742)

The four estimation methods and two mean-handling policies.  The C++ takes
generic Integer arguments and a Result precision; Integer is modelled as ℤ
(the signed instantiation; the source comments on lines 596 and 623 warn about
the unsigned one) and Result as ℚ.  In the C++, integer-typed subexpressions
are evaluated in Integer arithmetic and converted on assignment to Result;
the casts below mirror that. -/

/-- Tag for the two mean-handling policies (burg.hpp lines 488-510). -/
inductive MeanHandling
  | mean_subtracted
  | mean_retained
deriving DecidableEq

/-- Order-zero empirical variance: mean_subtracted::empirical_variance_zero
returns 1/N (line 497), mean_retained::empirical_variance_zero returns 0
(line 508). -/
def empirical_variance_zero : MeanHandling → ℤ → ℚ
  | MeanHandling.mean_subtracted, N => 1 / (N : ℚ)
  | MeanHandling.mean_retained, _ => 0

namespace YuleWalker

/-- YuleWalker::empirical_variance (burg.hpp lines 534-546):
num = N - i, den = N*(N+2) computed in Integer arithmetic, result num/den. -/
def empirical_variance (mh : MeanHandling) (N i : ℤ) : ℚ :=
  if i = 0 then empirical_variance_zero mh N
  else ((N - i : ℤ) : ℚ) / ((N * (N + 2) : ℤ) : ℚ)

end YuleWalker

namespace Burg

/-- Burg::empirical_variance (burg.hpp lines 560-572): den = N + 1 - i. -/
def empirical_variance (mh : MeanHandling) (N i : ℤ) : ℚ :=
  if i = 0 then empirical_variance_zero mh N
  else 1 / ((N + 1 - i : ℤ) : ℚ)

end Burg

namespace LSFB

/-- Denominator N + Result(3)/2 - Result(3)/2 * i of LSFB::empirical_variance
(burg.hpp line 597); the division by 2 happens in Result precision. -/
def den (N i : ℤ) : ℚ := (N : ℚ) + (3 : ℚ) / 2 - (3 : ℚ) / 2 * (i : ℚ)

/-- LSFB::empirical_variance (burg.hpp lines 586-599). -/
def empirical_variance (mh : MeanHandling) (N i : ℤ) : ℚ :=
  if i = 0 then empirical_variance_zero mh N
  else 1 / den N i

end LSFB

namespace LSF

/-- Denominator N + 2 - 2*i of LSF::empirical_variance (burg.hpp line 624),
computed in Integer arithmetic and converted to Result. -/
def den (N i : ℤ) : ℚ := ((N + 2 - 2 * i : ℤ) : ℚ)

/-- LSF::empirical_variance (burg.hpp lines 613-626). -/
def empirical_variance (mh : MeanHandling) (N i : ℤ) : ℚ :=
  if i = 0 then empirical_variance_zero mh N
  else 1 / den N i

end LSF

/-! ## The empirical-variance forward iterator (burg.hpp lines 685-742)

The iterator stores a sample count N and a cursor i.  Its private constructor
(line 695) reads `empirical_variance_iterator(Integer1 N, Integer2) : N(N), i(i)`:
the second parameter is unnamed, so the member initializer i(i) initializes the
member i from itself, leaving it indeterminate.  The cursor is therefore
modelled as an Option, with none standing for the indeterminate value. -/

structure empirical_variance_iterator where
  N : ℕ
  i : Option ℕ
deriving DecidableEq

namespace empirical_variance_iterator

/-- The private constructor (burg.hpp line 695): the argument is ignored and
the member cursor is self-initialized, hence indeterminate (none). -/
def privateMk (N : ℕ) (_arg : ℕ) : empirical_variance_iterator := ⟨N, none⟩

/-- The public constructor (burg.hpp line 711): begins the sequence at i = 0. -/
def begin (N : ℕ) : empirical_variance_iterator := ⟨N, some 0⟩

/-- operator++(int) (burg.hpp lines 717-718): returns privateMk (N, i++).
The member cursor advances by one; the returned copy receives whatever the
self-initializing private constructor produces.  The pair is
(returned copy, iterator after the increment). -/
def postInc (it : empirical_variance_iterator) :
    empirical_variance_iterator × empirical_variance_iterator :=
  (privateMk it.N (it.i.getD 0), { it with i := it.i.map (· + 1) })

/-- operator* (burg.hpp lines 734-741), instantiated at the Burg method with
the mean subtracted, working precision ℚ.  Dereferencing an indeterminate
cursor has no defined value. -/
def deref (it : empirical_variance_iterator) : Option ℚ :=
  it.i.map (fun i => Burg.empirical_variance MeanHandling.mean_subtracted it.N i)

end empirical_variance_iterator

/-! ## Zohar-Trench Toeplitz solver (burg.hpp lines 280-466)

Solves L s = d for the (n+1)x(n+1) Toeplitz matrix with unit diagonal, first
row (1, ã) and first column (1, r)ᵀ, with n = distance(a_first, a_last).
The C++ throws std::invalid_argument when n < 1; this is modelled by an
Option result with none standing for the thrown exception.  Division by a
zero lambda is not guarded in the C++ (it produces non-finite values); over ℚ
it follows the Lean convention x / 0 = 0. -/

/-- State of the Zohar recursion: the working vectors s, ê, g of length i+1
at step i, and the scalar λ (burg.hpp lines 307-311). -/
structure ZoharState where
  s : List ℚ
  ehat : List ℚ
  g : List ℚ
  lambda : ℚ
deriving DecidableEq

/-- One iteration i ∈ {1, …, n-1} of the Zohar recursion (burg.hpp lines
322-372).  The inner loop updates s[j], g[j] in place from the old ê[j] and
builds next_ê from the old ê[j] and the old g[j] (g[j] is written only after
next_ê has consumed it), so each of the three sweeps reads only pre-iteration
values; they are rendered as zipWith over the old vectors. -/
def zoharStep (a r d : List ℚ) (st : ZoharState) (i : ℕ) : ZoharState :=
  let rhat := (r.take i).reverse
  let neg_theta := inner_product st.s rhat (-(d.getD i 0))
  let neg_eta := inner_product st.ehat a (a.getD i 0)
  let neg_gamma := inner_product st.g rhat (r.getD i 0)
  let theta_by_lambda := -neg_theta / st.lambda
  let eta_by_lambda := -neg_eta / st.lambda
  let gamma_by_lambda := -neg_gamma / st.lambda
  { s := (List.zipWith (fun sj ej => sj + theta_by_lambda * ej) st.s st.ehat) ++ [theta_by_lambda]
  , ehat := eta_by_lambda :: List.zipWith (fun ej gj => ej + eta_by_lambda * gj) st.ehat st.g
  , g := (List.zipWith (fun gj ej => gj + gamma_by_lambda * ej) st.g st.ehat) ++ [gamma_by_lambda]
  , lambda := st.lambda - neg_eta * neg_gamma / st.lambda }

/-- Iterations 1 through k of the Zohar recursion. -/
def zoharLoop (a r d : List ℚ) : ℕ → ZoharState → ZoharState
  | 0, st => st
  | k + 1, st => zoharStep a r d (zoharLoop a r d k st) (k + 1)

/-- The body of zohar_linear_solve after the argument check: initialization
(burg.hpp lines 308-311), the recursion for i = 1..n-1, and the final step
i = n which computes only θ and extends s (lines 376-395). -/
def zohar_run (a r d : List ℚ) : List ℚ :=
  let n := a.length
  let st0 : ZoharState :=
    { s := [d.getD 0 0]
    , ehat := [-(a.getD 0 0)]
    , g := [-(r.getD 0 0)]
    , lambda := 1 - a.getD 0 0 * r.getD 0 0 }
  let st := zoharLoop a r d (n - 1) st0
  let rhat := (r.take n).reverse
  let neg_theta := inner_product st.s rhat (-(d.getD n 0))
  let theta_by_lambda := -neg_theta / st.lambda
  (List.zipWith (fun sj ej => sj + theta_by_lambda * ej) st.s st.ehat) ++ [theta_by_lambda]

/-- zohar_linear_solve (burg.hpp lines 283-399).  The n+1 entries written
through s_first are returned; none models the std::invalid_argument thrown
at line 304 when distance(a_first, a_last) < 1. -/
def zohar_linear_solve (a r d : List ℚ) : Option (List ℚ) :=
  if a.length < 1 then none
  else some (zohar_run a r d)

/-- The in-place overload (burg.hpp lines 428-434): d doubles as the output.
All reads of d precede the final copy in the C++, so it coincides with the
general solver. -/
def zohar_linear_solve_inplace (a r d : List ℚ) : Option (List ℚ) :=
  zohar_linear_solve a r d

/-- The symmetric overload (burg.hpp lines 461-466): a and r iterate over the
same data. -/
def zohar_linear_solve_symmetric (a d : List ℚ) : Option (List ℚ) :=
  zohar_linear_solve_inplace a a d

/-! ## Pairwise summation and the mean (burg.hpp lines 142-162)

The auxiliary buffer b starts as N zeros.  A first pass folds the input into
its lower half, b[i/2] += f[i]; then, with i initialized to the largest power
of two at most N, the loop `while (i /= 2) for (j < i) b[j] = b[2j] + b[2j+1]`
collapses the sum into b[0].  Finally mean = b[0] / N; at N = 0 the read b[0]
is out of the empty buffer's range, which the Option-valued access below makes
visible. -/

/-- Body of the first pairwise pass (burg.hpp line 150): b[i/2] += f[i]. -/
def pass1_step (f acc : List ℚ) (i : ℕ) : List ℚ :=
  acc.set (i / 2) (acc.getD (i / 2) 0 + f.getD i 0)

/-- The first pairwise pass run for indices i < m. -/
def pairwise_pass1_upto (f b : List ℚ) (m : ℕ) : List ℚ :=
  (List.range m).foldl (pass1_step f) b

/-- The complete first pass (burg.hpp lines 149-150) over b = N zeros. -/
def pairwise_pass1 (f : List ℚ) : List ℚ :=
  pairwise_pass1_upto f (List.replicate f.length 0) f.length

/-- The initialization loop `size t = N, i = !!N; while (t /= 2) i *= 2`
(burg.hpp lines 153-155): each halving of t doubles i. -/
def pow2_le (t i : ℕ) : ℕ :=
  if h : t / 2 = 0 then i else pow2_le (t / 2) (i * 2)
termination_by t
decreasing_by omega

/-- The value of i after the initialization loop: the largest power of two at
most N when N ≥ 1, and 0 when N = 0 (i starts at !!N). -/
def pairwise_init (N : ℕ) : ℕ :=
  pow2_le N (if N = 0 then 0 else 1)

/-- Body of the recursion pass (burg.hpp line 160): b[j] = b[2j] + b[2j+1]. -/
def fold_once_step (acc : List ℚ) (j : ℕ) : List ℚ :=
  acc.set j (acc.getD (2 * j) 0 + acc.getD (2 * j + 1) 0)

/-- One recursion pass over j < m (burg.hpp lines 159-160).  Iteration j
writes index j and reads indices 2j and 2j+1 ≥ j, so every read sees the
pre-pass value. -/
def fold_once (b : List ℚ) (m : ℕ) : List ℚ :=
  (List.range m).foldl fold_once_step b

/-- The loop `while (i /= 2) ...` (burg.hpp lines 158-160): halve i, stop at
zero, otherwise run one pass at the halved size and continue. -/
def fold_loop (b : List ℚ) (i : ℕ) : List ℚ :=
  if h : i / 2 = 0 then b else fold_loop (fold_once b (i / 2)) (i / 2)
termination_by i
decreasing_by omega

/-- The auxiliary buffer after the complete pairwise summation. -/
def pairwise_buffer (f : List ℚ) : List ℚ :=
  fold_loop (pairwise_pass1 f) (pairwise_init f.length)

/-- mean = b[0] / N (burg.hpp line 162), with the unchecked subscript read as
getD.  Over ℚ, division by N = 0 yields 0. -/
def burg_mean (f : List ℚ) : ℚ :=
  (pairwise_buffer f).getD 0 0 / (f.length : ℚ)

/-- The same b[0] access with its bounds made explicit: none exactly when
index 0 is outside the buffer, i.e. when the input is empty. -/
def burg_mean_checked (f : List ℚ) : Option ℚ :=
  (pairwise_buffer f)[0]?.map (fun s => s / (f.length : ℚ))

/-! ## Burg recursion (burg.hpp lines 110-240) -/

/-- The maxorder clamp (burg.hpp line 165):
`maxorder = min(static_cast<size>(maxorder)+1, N)-1` in size_t arithmetic.
On the reference LP64 platform size_t is 64 bits wide; the subtraction is
modelled exactly, so min(p_in+1, N) = 0 (which happens when N = 0) wraps
around to 2^64 - 1. -/
def burg_effective_maxorder (p_in N : ℕ) : ℕ :=
  (min ((p_in + 1) % 2 ^ 64) N + (2 ^ 64 - 1)) % 2 ^ 64

/-- Working state of the Burg recursion: the residual buffers f and b, the
coefficient buffer Ak, the scalars σ²ₑ, gain and Dk, the accumulated
autocorrelations, and the three output sinks. -/
structure BurgState where
  f : List ℚ
  b : List ℚ
  Ak : List ℚ
  sigma2e : ℚ
  gain : ℚ
  Dk : ℚ
  autocor : List ℚ
  params_out : List ℚ
  sigma2e_out : List ℚ
  gain_out : List ℚ
deriving DecidableEq

/-- The reflection coefficient (burg.hpp lines 193-194):
mu = 2/Dk * inner_product(f.begin() + kp1, f.end(), b.begin(), 0). -/
def burg_mu (s : BurgState) (kp1 : ℕ) : ℚ :=
  2 / s.Dk * inner_product (s.f.drop kp1) s.b 0

/-- The symmetric coefficient sweep (burg.hpp lines 196-202).  The loop runs
n = 0..kp1/2 and updates the pair Ak[n], Ak[kp1-n] from pre-sweep values;
distinct iterations touch disjoint pairs whose union is 0..kp1, so the sweep
is the pointwise map below (at n = kp1-n the two assigned values coincide). -/
def burg_sweep_Ak (mu : ℚ) (kp1 : ℕ) (Ak : List ℚ) : List ℚ :=
  (List.range Ak.length).map
    (fun n => if n ≤ kp1 then Ak.getD n 0 - mu * Ak.getD (kp1 - n) 0 else Ak.getD n 0)

/-- One iteration of the Burg recursion at loop index kp1 (burg.hpp lines
188-232).  The f/b sweep (lines 224-230) writes f[n+kp1] and b[n] for
n ∈ [0, N-kp1) from the pre-iteration values held in temporaries; iteration n
touches only its own pair, so the sweep is the pair of zipWith maps below. -/
def burgStep (N maxorder : ℕ) (hierarchy : Bool) (s : BurgState) (kp1 : ℕ) :
    BurgState :=
  let mu := burg_mu s kp1
  let sigma2e := s.sigma2e * (1 - mu * mu)
  let Ak := burg_sweep_Ak mu kp1 s.Ak
  let gain := s.gain * (1 / (1 - Ak.getD kp1 0 * Ak.getD kp1 0))
  let rho := -(inner_product s.autocor.reverse (Ak.drop 1) (Ak.getD kp1 0))
  let autocor := s.autocor ++ [rho]
  let emit := hierarchy || kp1 == maxorder
  let params_out := if emit then s.params_out ++ (Ak.drop 1).take kp1 else s.params_out
  let sigma2e_out := if emit then s.sigma2e_out ++ [sigma2e] else s.sigma2e_out
  let gain_out := if emit then s.gain_out ++ [gain] else s.gain_out
  if kp1 < maxorder then
    let fnew := s.f.take kp1 ++
      List.zipWith (fun x y => x - mu * y) (s.f.drop kp1) (s.b.take (N - kp1))
    let bnew := List.zipWith (fun y x => y - mu * x) (s.b.take (N - kp1)) (s.f.drop kp1) ++
      s.b.drop (N - kp1)
    let Dk := (1 - mu * mu) * s.Dk - fnew.getD kp1 0 * fnew.getD kp1 0 -
      bnew.getD (N - kp1 - 1) 0 * bnew.getD (N - kp1 - 1) 0
    { f := fnew, b := bnew, Ak := Ak, sigma2e := sigma2e, gain := gain, Dk := Dk,
      autocor := autocor, params_out := params_out, sigma2e_out := sigma2e_out,
      gain_out := gain_out }
  else
    { s with
      Ak := Ak
      sigma2e := sigma2e
      gain := gain
      autocor := autocor
      params_out := params_out
      sigma2e_out := sigma2e_out
      gain_out := gain_out }

/-- Iterations kp1 = 1..k of the Burg recursion (burg.hpp line 188). -/
def burgIter (N maxorder : ℕ) (hierarchy : Bool) (s : BurgState) : ℕ → BurgState
  | 0 => s
  | k + 1 => burgStep N maxorder hierarchy (burgIter N maxorder hierarchy s k) (k + 1)

/-- The state set up before the recursion (burg.hpp lines 170-186): optional
mean subtraction, σ²ₑ = Σf², Dk = -f[0]² - f[N-1]² + 2σ²ₑ, then σ²ₑ /= N;
b is overwritten with a copy of f, Ak = (1, 0, …, 0), gain = 1. -/
def burg_init (xs : List ℚ) (p_in : ℕ) (subtract_mean : Bool) : BurgState :=
  let N := xs.length
  let mean := burg_mean xs
  let maxorder := burg_effective_maxorder p_in N
  let f := if subtract_mean then xs.map (fun x => x - mean) else xs
  let sigma2e := inner_product f f 0
  let Dk := -(f.getD 0 0 * f.getD 0 0) - f.getD (N - 1) 0 * f.getD (N - 1) 0 + 2 * sigma2e
  { f := f
  , b := f
  , Ak := (List.replicate (maxorder + 1) 0).set 0 1
  , sigma2e := sigma2e / (N : ℚ)
  , gain := 1
  , Dk := Dk
  , autocor := []
  , params_out := []
  , sigma2e_out := []
  , gain_out := [] }

/-- Everything burg_method gives back: the outputs written through its sinks
and references, and its return value. -/
structure BurgResult where
  mean : ℚ
  maxorder_out : ℕ
  params : List ℚ
  sigma2e : List ℚ
  gain : List ℚ
  autocor : List ℚ
  ret : ℕ
deriving DecidableEq

/-- burg_method (burg.hpp lines 116-240): read the input, compute the mean by
pairwise summation, clamp maxorder, short-circuit when it is zero, otherwise
run the recursion and copy the autocorrelations out. -/
def burg_method (xs : List ℚ) (p_in : ℕ) (subtract_mean hierarchy : Bool) :
    BurgResult :=
  let N := xs.length
  let mean := burg_mean xs
  let maxorder := burg_effective_maxorder p_in N
  if maxorder = 0 then
    { mean := mean, maxorder_out := maxorder, params := [], sigma2e := [],
      gain := [], autocor := [], ret := N }
  else
    let sF := burgIter N maxorder hierarchy (burg_init xs p_in subtract_mean) maxorder
    { mean := mean, maxorder_out := maxorder, params := sF.params_out,
      sigma2e := sF.sigma2e_out, gain := sF.gain_out, autocor := sF.autocor,
      ret := N }

/-! ## Specification-side helpers (not from the source; used to state and
prove properties of the definitions above) -/

/-- Sum of the first k entries of a list, read through getD. -/
def sumTo (l : List ℚ) (k : ℕ) : ℚ := ∑ j in Finset.range k, l.getD j 0

/-- Sum of squares of a list's entries. -/
def sumsq (l : List ℚ) : ℚ := (l.map fun x => x * x).sum

/-- Dot product of two lists (truncating to the shorter). -/
def dotp (X Y : List ℚ) : ℚ := (List.zipWith (fun x y => x * y) X Y).sum

/-! # Theorems -/

/-! ## Basic lemmas about the list helpers -/

theorem inner_product_eq_dotp (X : List ℚ) : ∀ (Y : List ℚ) (c : ℚ),
    inner_product X Y c = c + dotp X Y := by
  induction X with
  | nil => intro Y c; simp [inner_product, dotp]
  | cons x xs ih =>
    intro Y c
    cases Y with
    | nil => simp [inner_product, dotp]
    | cons y ys =>
      simp [inner_product, dotp, ih ys (c + x * y)]
      ring

/-! ## List access helpers -/

theorem getD_set_self (l : List ℚ) (i : ℕ) (v : ℚ) (h : i < l.length) :
    (l.set i v).getD i 0 = v := by
  simp [List.getD, List.getElem?_set_self', h]

theorem getD_set_ne (l : List ℚ) (i j : ℕ) (v : ℚ) (h : i ≠ j) :
    (l.set i v).getD j 0 = l.getD j 0 := by
  simp [List.getD, List.getElem?_set_ne h]

theorem getD_append_left (l₁ l₂ : List ℚ) (i : ℕ) (h : i < l₁.length) :
    (l₁ ++ l₂).getD i 0 = l₁.getD i 0 := by
  simp [List.getD, List.getElem?_append, h]

theorem getD_append_right (l₁ l₂ : List ℚ) (i : ℕ) (h : l₁.length ≤ i) :
    (l₁ ++ l₂).getD i 0 = l₂.getD (i - l₁.length) 0 := by
  simp [List.getD, List.getElem?_append_right h]

theorem getD_of_length_le (l : List ℚ) (n : ℕ) (h : l.length ≤ n) :
    l.getD n 0 = 0 := by
  simp [List.getD, List.getElem?_eq_none h]

theorem getD_replicate_zero (n j : ℕ) : (List.replicate n (0 : ℚ)).getD j 0 = 0 := by
  by_cases h : j < n
  · simp [List.getD, List.getElem?_replicate, h]
  · simp [List.getD, List.getElem?_replicate, h]

/-! ## Sums over list prefixes -/

theorem sumTo_zero (l : List ℚ) : sumTo l 0 = 0 := by
  simp [sumTo]

theorem sumTo_succ (l : List ℚ) (k : ℕ) : sumTo l (k + 1) = sumTo l k + l.getD k 0 := by
  simp [sumTo, Finset.sum_range_succ]

theorem sumTo_one (l : List ℚ) : sumTo l 1 = l.getD 0 0 := by
  rw [sumTo, Finset.sum_range_one]

theorem sum_eq_sumTo (l : List ℚ) : l.sum = sumTo l l.length := by
  induction l with
  | nil => simp [sumTo]
  | cons x xs ih =>
    simp only [List.sum_cons, List.length_cons, sumTo, Finset.sum_range_succ']
    simp only [List.getD_cons_succ, List.getD_cons_zero]
    rw [ih, sumTo, add_comm]

theorem sumTo_eq_of_zero_beyond (l : List ℚ) (m : ℕ)
    (hz : ∀ j, m ≤ j → l.getD j 0 = 0) :
    ∀ n, m ≤ n → sumTo l n = sumTo l m := by
  intro n
  induction n with
  | zero =>
    intro h
    have hm : m = 0 := by omega
    rw [hm]
  | succ k ih =>
    intro h
    rcases Nat.lt_or_ge m (k + 1) with hlt | hge
    · have hk : m ≤ k := by omega
      rw [sumTo_succ, ih hk, hz k hk, add_zero]
    · have : m = k + 1 := by omega
      rw [this]

theorem sum_set_add (l : List ℚ) : ∀ (j : ℕ) (x : ℚ), j < l.length →
    (l.set j (l.getD j 0 + x)).sum = l.sum + x := by
  induction l with
  | nil => intro j x h; simp at h
  | cons a l ih =>
    intro j x h
    cases j with
    | zero =>
      simp only [List.getD_cons_zero, List.set_cons_zero, List.sum_cons]
      ring
    | succ j =>
      simp only [List.getD_cons_succ, List.set_cons_succ, List.sum_cons]
      rw [ih j x (by simpa using h)]
      ring

theorem foldl_range_succ {α : Type} (g : α → ℕ → α) (b : α) (m : ℕ) :
    (List.range (m + 1)).foldl g b = g ((List.range m).foldl g b) m := by
  rw [List.range_succ, List.foldl_append]
  rfl

/-! ## The first pairwise pass -/

theorem pairwise_pass1_upto_succ (f b : List ℚ) (m : ℕ) :
    pairwise_pass1_upto f b (m + 1) = pass1_step f (pairwise_pass1_upto f b m) m := by
  unfold pairwise_pass1_upto
  exact foldl_range_succ (pass1_step f) b m

theorem pairwise_pass1_upto_length (f b : List ℚ) : ∀ m,
    (pairwise_pass1_upto f b m).length = b.length := by
  intro m
  induction m with
  | zero => rfl
  | succ k ih =>
    rw [pairwise_pass1_upto_succ, pass1_step, List.length_set, ih]

theorem pairwise_pass1_upto_sum (f b : List ℚ) (hb : f.length ≤ b.length) : ∀ m,
    m ≤ f.length → (pairwise_pass1_upto f b m).sum = b.sum + sumTo f m := by
  intro m
  induction m with
  | zero => intro _; simp [pairwise_pass1_upto, sumTo_zero]
  | succ k ih =>
    intro h
    have hk : k ≤ f.length := by omega
    have hdiv : k / 2 < (pairwise_pass1_upto f b k).length := by
      rw [pairwise_pass1_upto_length]
      omega
    rw [pairwise_pass1_upto_succ, pass1_step,
      sum_set_add _ _ _ hdiv, ih hk, sumTo_succ]
    ring

theorem pairwise_pass1_upto_getD_high (f b : List ℚ) (j : ℕ)
    (hj : (f.length + 1) / 2 ≤ j) : ∀ m, m ≤ f.length →
    (pairwise_pass1_upto f b m).getD j 0 = b.getD j 0 := by
  intro m
  induction m with
  | zero => intro _; rfl
  | succ k ih =>
    intro h
    have hk : k ≤ f.length := by omega
    have hne : k / 2 ≠ j := by omega
    rw [pairwise_pass1_upto_succ, pass1_step, getD_set_ne _ _ _ _ hne, ih hk]

theorem pairwise_pass1_length (f : List ℚ) : (pairwise_pass1 f).length = f.length := by
  rw [pairwise_pass1, pairwise_pass1_upto_length, List.length_replicate]

theorem pairwise_pass1_sum (f : List ℚ) : (pairwise_pass1 f).sum = f.sum := by
  rw [pairwise_pass1,
    pairwise_pass1_upto_sum f _ (by simp) f.length (le_refl _), sum_eq_sumTo f]
  simp [List.sum_replicate]

theorem pairwise_pass1_getD_high (f : List ℚ) (j : ℕ) (hj : (f.length + 1) / 2 ≤ j) :
    (pairwise_pass1 f).getD j 0 = 0 := by
  rw [pairwise_pass1, pairwise_pass1_upto_getD_high f _ j hj f.length (le_refl _),
    getD_replicate_zero]

/-! ## The recursion passes -/

theorem fold_once_succ (b : List ℚ) (m : ℕ) :
    fold_once b (m + 1) = fold_once_step (fold_once b m) m := by
  unfold fold_once
  exact foldl_range_succ fold_once_step b m

theorem fold_once_length (b : List ℚ) : ∀ m, (fold_once b m).length = b.length := by
  intro m
  induction m with
  | zero => rfl
  | succ k ih => rw [fold_once_succ, fold_once_step, List.length_set, ih]

theorem fold_once_getD (b : List ℚ) : ∀ m, m ≤ b.length → ∀ j,
    (fold_once b m).getD j 0 =
      if j < m then b.getD (2 * j) 0 + b.getD (2 * j + 1) 0 else b.getD j 0 := by
  intro m
  induction m with
  | zero => intro _ j; simp [fold_once]
  | succ k ih =>
    intro h j
    have hk : k ≤ b.length := by omega
    have h2k : ¬ (2 * k < k) := by omega
    have h2k1 : ¬ (2 * k + 1 < k) := by omega
    rw [fold_once_succ, fold_once_step]
    rcases eq_or_ne k j with rfl | hne
    · have hlen : k < (fold_once b k).length := by rw [fold_once_length]; omega
      rw [getD_set_self _ _ _ hlen, ih hk, ih hk, if_neg h2k, if_neg h2k1, if_pos (by omega)]
    · rw [getD_set_ne _ _ _ _ hne, ih hk j]
      rcases Nat.lt_or_ge j k with hlt | hge
      · rw [if_pos hlt, if_pos (by omega)]
      · rw [if_neg (by omega), if_neg (by omega)]

theorem sum_pair_range (g : ℕ → ℚ) : ∀ m : ℕ,
    (∑ j in Finset.range m, (g (2 * j) + g (2 * j + 1))) = ∑ j in Finset.range (2 * m), g j := by
  intro m
  induction m with
  | zero => simp
  | succ k ih =>
    have h2 : 2 * (k + 1) = (2 * k + 1) + 1 := by ring
    rw [Finset.sum_range_succ, ih, h2, Finset.sum_range_succ, Finset.sum_range_succ]
    ring

theorem fold_once_sumTo (b : List ℚ) (m : ℕ) (hm : m ≤ b.length) :
    sumTo (fold_once b m) m = sumTo b (2 * m) := by
  rw [sumTo, sumTo, ← sum_pair_range]
  refine Finset.sum_congr rfl ?_
  intro j hj
  rw [fold_once_getD b m hm j, if_pos (Finset.mem_range.mp hj)]

theorem fold_loop_length : ∀ (i : ℕ) (b : List ℚ), (fold_loop b i).length = b.length := by
  intro i
  induction i using Nat.strong_induction_on with
  | _ i ih =>
    intro b
    rw [fold_loop]
    by_cases h : i / 2 = 0
    · rw [dif_pos h]
    · rw [dif_neg h, ih (i / 2) (by omega), fold_once_length]

theorem fold_loop_getD_zero : ∀ (i : ℕ) (k : ℕ) (b : List ℚ) (S : ℚ),
    i = 2 ^ k → i ≤ b.length → sumTo b i = S → (fold_loop b i).getD 0 0 = S := by
  intro i
  induction i using Nat.strong_induction_on with
  | _ i ih =>
    intro k b S hk hlen hsum
    have hpos : 1 ≤ i := by
      rw [hk]; exact Nat.one_le_two_pow
    rw [fold_loop]
    by_cases h : i / 2 = 0
    · rw [dif_pos h]
      have hone : i = 1 := by omega
      rw [hone] at hsum
      rw [sumTo_one] at hsum
      exact hsum
    · rw [dif_neg h]
      have hk1 : 1 ≤ k := by
        by_contra hc
        have : k = 0 := by omega
        rw [this, pow_zero] at hk
        omega
      have hhalf : i / 2 = 2 ^ (k - 1) := by
        have : i = 2 * 2 ^ (k - 1) := by
          rw [hk, ← pow_succ']
          congr 1
          omega
        omega
      have hdouble : 2 * (i / 2) = i := by
        have : i = 2 * 2 ^ (k - 1) := by
          rw [hk, ← pow_succ']
          congr 1
          omega
        omega
      refine ih (i / 2) (by omega) (k - 1) (fold_once b (i / 2)) S hhalf ?_ ?_
      · rw [fold_once_length]; omega
      · rw [fold_once_sumTo b (i / 2) (by omega), hdouble, hsum]

/-! ## The initialization loop -/

theorem pow2_le_spec : ∀ t : ℕ, 1 ≤ t → ∀ i : ℕ,
    ∃ k, pow2_le t i = i * 2 ^ k ∧ 2 ^ k ≤ t ∧ t < 2 ^ (k + 1) := by
  intro t
  induction t using Nat.strong_induction_on with
  | _ t ih =>
    intro ht i
    rw [pow2_le]
    by_cases h : t / 2 = 0
    · rw [dif_pos h]
      exact ⟨0, by ring, by omega, by omega⟩
    · rw [dif_neg h]
      obtain ⟨k, hval, hlo, hhi⟩ := ih (t / 2) (by omega) (by omega) (i * 2)
      refine ⟨k + 1, ?_, ?_, ?_⟩
      · rw [hval, pow_succ]
        ring
      · have : 2 ^ (k + 1) = 2 * 2 ^ k := by rw [pow_succ]; ring
        omega
      · have : 2 ^ (k + 2) = 2 * 2 ^ (k + 1) := by rw [pow_succ]; ring
        omega

theorem pairwise_init_spec (N : ℕ) (h : 1 ≤ N) :
    ∃ k, pairwise_init N = 2 ^ k ∧ 2 ^ k ≤ N ∧ N < 2 ^ (k + 1) := by
  rw [pairwise_init, if_neg (by omega)]
  obtain ⟨k, hval, hlo, hhi⟩ := pow2_le_spec N h 1
  exact ⟨k, by rw [hval, one_mul], hlo, hhi⟩

/-! ## Exactness of the pairwise mean -/

theorem pairwise_buffer_getD_zero (f : List ℚ) (h : f ≠ []) :
    (pairwise_buffer f).getD 0 0 = f.sum := by
  have hN : 1 ≤ f.length := List.length_pos.mpr h
  obtain ⟨k, hval, hlo, hhi⟩ := pairwise_init_spec f.length hN
  have hzero : ∀ j, (f.length + 1) / 2 ≤ j → (pairwise_pass1 f).getD j 0 = 0 :=
    fun j hj => pairwise_pass1_getD_high f j hj
  have hmid : (f.length + 1) / 2 ≤ 2 ^ k := by
    have h2 : 2 ^ (k + 1) = 2 * 2 ^ k := by rw [pow_succ]; ring
    omega
  have hsum_init : sumTo (pairwise_pass1 f) (pairwise_init f.length) = f.sum := by
    rw [hval,
      sumTo_eq_of_zero_beyond (pairwise_pass1 f) ((f.length + 1) / 2) hzero (2 ^ k) hmid,
      ← sumTo_eq_of_zero_beyond (pairwise_pass1 f) ((f.length + 1) / 2) hzero f.length
        (by omega),
      ← pairwise_pass1_length f, ← sum_eq_sumTo, pairwise_pass1_sum]
  rw [pairwise_buffer]
  exact fold_loop_getD_zero (pairwise_init f.length) k (pairwise_pass1 f) f.sum
    (by rw [hval]) (by rw [pairwise_pass1_length, hval]; exact hlo) hsum_init

theorem burg_mean_eq (f : List ℚ) (h : f ≠ []) :
    burg_mean f = f.sum / (f.length : ℚ) := by
  rw [burg_mean, pairwise_buffer_getD_zero f h]

/-! ## Claims C8, C9, C10 -/

/-- Claim C8: for every (N, i) with N ≥ 1 and 0 ≤ i ≤ N, empirical_variance
returns 1/N at i = 0 under mean_subtracted and 0 under mean_retained for every
method, and for i ≥ 1 returns (N-i)/(N*(N+2)) for YuleWalker, 1/(N+1-i) for
Burg, 1/(N + 3/2 - 3i/2) for LSFB and 1/(N + 2 - 2i) for LSF; in particular
Burg(100, 10, mean_subtracted) = 1/91, LSF(100, 10, mean_subtracted) = 1/82,
and YuleWalker(i = 0, mean_retained) = 0. -/
theorem empirical_variance_table (N i : ℤ) (hN : 1 ≤ N) (hi0 : 0 ≤ i)
    (hiN : i ≤ N) :
    (i = 0 →
      (YuleWalker.empirical_variance MeanHandling.mean_subtracted N i = 1 / (N : ℚ) ∧
       Burg.empirical_variance MeanHandling.mean_subtracted N i = 1 / (N : ℚ) ∧
       LSFB.empirical_variance MeanHandling.mean_subtracted N i = 1 / (N : ℚ) ∧
       LSF.empirical_variance MeanHandling.mean_subtracted N i = 1 / (N : ℚ)) ∧
      (YuleWalker.empirical_variance MeanHandling.mean_retained N i = 0 ∧
       Burg.empirical_variance MeanHandling.mean_retained N i = 0 ∧
       LSFB.empirical_variance MeanHandling.mean_retained N i = 0 ∧
       LSF.empirical_variance MeanHandling.mean_retained N i = 0)) ∧
    (1 ≤ i → ∀ mh : MeanHandling,
      YuleWalker.empirical_variance mh N i = ((N : ℚ) - i) / ((N : ℚ) * (N + 2)) ∧
      Burg.empirical_variance mh N i = 1 / ((N : ℚ) + 1 - i) ∧
      LSFB.empirical_variance mh N i = 1 / ((N : ℚ) + 3 / 2 - 3 * i / 2) ∧
      LSF.empirical_variance mh N i = 1 / ((N : ℚ) + 2 - 2 * i)) ∧
    Burg.empirical_variance MeanHandling.mean_subtracted 100 10 = 1 / 91 ∧
    LSF.empirical_variance MeanHandling.mean_subtracted 100 10 = 1 / 82 ∧
    YuleWalker.empirical_variance MeanHandling.mean_retained N 0 = 0 := by
  refine ⟨?_, ?_, ?_, ?_, ?_⟩
  · intro hi
    subst hi
    simp [YuleWalker.empirical_variance, Burg.empirical_variance,
      LSFB.empirical_variance, LSF.empirical_variance, empirical_variance_zero]
  · intro hi mh
    have hne : i ≠ 0 := by omega
    refine ⟨?_, ?_, ?_, ?_⟩
    · simp only [YuleWalker.empirical_variance, if_neg hne]
      push_cast
      ring
    · simp only [Burg.empirical_variance, if_neg hne]
      push_cast
      ring_nf
    · simp only [LSFB.empirical_variance, LSFB.den, if_neg hne]
      push_cast
      ring_nf
    · simp only [LSF.empirical_variance, LSF.den, if_neg hne]
      push_cast
      ring_nf
  · norm_num [Burg.empirical_variance]
  · norm_num [LSF.empirical_variance, LSF.den]
  · simp [YuleWalker.empirical_variance, empirical_variance_zero]

/-- Witness for C8 at N = 100, i = 10. -/
theorem empirical_variance_table_witness :
    (1 : ℤ) ≤ 100 ∧ (0 : ℤ) ≤ 10 ∧ (10 : ℤ) ≤ 100 ∧
    Burg.empirical_variance MeanHandling.mean_subtracted 100 10 = 1 / 91 ∧
    LSF.empirical_variance MeanHandling.mean_subtracted 100 10 = 1 / 82 ∧
    YuleWalker.empirical_variance MeanHandling.mean_retained 100 0 = 0 := by
  have h := empirical_variance_table 100 10 (by decide) (by decide) (by decide)
  exact ⟨by decide, by decide, by decide, h.2.2.1, h.2.2.2.1, h.2.2.2.2⟩

/-- Claim C10 counterexample: within the documented precondition N ≥ 1,
0 ≤ i ≤ N, the unguarded LSF denominator N + 2 - 2i vanishes at N = 2, i = 2,
and the unguarded LSFB denominator N + 3/2 - 3i/2 vanishes at N = 3, i = 3,
so a division by zero does occur at the public interface. -/
theorem lsf_lsfb_denominator_vanishes :
    LSF.den 2 2 = 0 ∧ LSFB.den 3 3 = 0 ∧
    ((1 : ℤ) ≤ 2 ∧ (0 : ℤ) ≤ 2 ∧ (2 : ℤ) ≤ 2) ∧
    ((1 : ℤ) ≤ 3 ∧ (0 : ℤ) ≤ 3 ∧ (3 : ℤ) ≤ 3) := by
  refine ⟨?_, ?_, ⟨by decide, by decide, by decide⟩, ⟨by decide, by decide, by decide⟩⟩
  · norm_num [LSF.den]
  · norm_num [LSFB.den]

/-- Claim C10, amended: within the precondition, the LSF denominator vanishes
exactly when 2i = N + 2 and the LSFB denominator exactly when 3i = 2N + 3;
away from those lines both denominators are nonzero and no division by zero
occurs. -/
theorem lsf_lsfb_denominator_characterisation (N i : ℤ) :
    (LSF.den N i = 0 ↔ 2 * i = N + 2) ∧
    (LSFB.den N i = 0 ↔ 3 * i = 2 * N + 3) := by
  constructor
  · rw [LSF.den]
    push_cast
    constructor
    · intro h
      have : (2 * i : ℚ) = (N : ℚ) + 2 := by linarith
      exact_mod_cast this
    · intro h
      have : (2 * i : ℚ) = (N : ℚ) + 2 := by exact_mod_cast h
      linarith
  · rw [LSFB.den]
    constructor
    · intro h
      have : (3 * i : ℚ) = 2 * (N : ℚ) + 3 := by linarith
      exact_mod_cast this
    · intro h
      have : (3 * i : ℚ) = 2 * (N : ℚ) + 3 := by exact_mod_cast h
      linarith

/-- Claim C9: with the self-initializing private constructor, the copy
returned by post-increment does not hold the pre-increment cursor: its cursor
is indeterminate, so dereferencing it (as *it++ does) has no defined value,
while the iterator itself does advance by one.  Evaluated at N = 1, first
step of the traversal. -/
theorem postInc_copy_indeterminate :
    ((empirical_variance_iterator.begin 1).postInc.1.deref = none) ∧
    ((empirical_variance_iterator.begin 1).postInc.1.i = none) ∧
    ((empirical_variance_iterator.begin 1).postInc.2.i = some 1) := by
  refine ⟨rfl, rfl, rfl⟩

/-! ## Claims C5, C6 -/

/-- Claim C5: the symmetric zohar_linear_solve with a = [0, 0, 0] (so L is
the 4x4 identity) and d = [1, 2, 3, 4] writes s = [1, 2, 3, 4]. -/
theorem zohar_symmetric_identity :
    zohar_linear_solve_symmetric [0, 0, 0] [1, 2, 3, 4] = some [1, 2, 3, 4] := by
  norm_num [zohar_linear_solve_symmetric, zohar_linear_solve_inplace,
    zohar_linear_solve, zohar_run, zoharLoop, zoharStep, inner_product]

/-- Claim C6: zohar_linear_solve raises its invalid-argument error exactly
when distance(a_first, a_last) < 1, i.e. when a is empty; for n ≥ 1 no error
is raised and the solver returns its n+1 computed values.  (This check is the
only explicit throw in burg.hpp; every other routine in this file is total.) -/
theorem zohar_invalid_argument_iff (a r d : List ℚ) :
    (zohar_linear_solve a r d = none ↔ a.length < 1) ∧
    (1 ≤ a.length → zohar_linear_solve a r d = some (zohar_run a r d)) := by
  rcases Nat.eq_zero_or_pos a.length with h0 | hpos
  · constructor
    · simp [zohar_linear_solve, h0]
    · intro h
      exact ((by omega : False)).elim
  · have hx : ¬ a.length < 1 := by omega
    constructor
    · constructor
      · intro h
        simp [zohar_linear_solve, hx] at h
      · intro h
        exact absurd h hx
    · intro _
      simp [zohar_linear_solve, hx]

/-- Witness for C6 at a = [1/2], r = [1/3], d = [1, 1]. -/
theorem zohar_invalid_argument_iff_witness :
    (zohar_linear_solve [(1 : ℚ)/2] [(1 : ℚ)/3] [1, 1] = none ↔
      ([(1 : ℚ)/2] : List ℚ).length < 1) ∧
    (1 ≤ ([(1 : ℚ)/2] : List ℚ).length →
      zohar_linear_solve [(1 : ℚ)/2] [(1 : ℚ)/3] [1, 1] =
        some (zohar_run [(1 : ℚ)/2] [(1 : ℚ)/3] [1, 1])) :=
  zohar_invalid_argument_iff [(1 : ℚ)/2] [(1 : ℚ)/3] [1, 1]

/-! ## Claims C2, C7, C4: the maxorder clamp, the empty input, and the mean -/

/-- The clamp behaves as documented for nonempty input: with 1 ≤ N and
p_in + 1 below the size_t wrap, min(p_in+1, N) ≥ 1 and the decrement does not
underflow. -/
theorem burg_effective_maxorder_of_pos (p_in N : ℕ) (hN : 1 ≤ N)
    (hp : p_in + 1 < 2 ^ 64) :
    burg_effective_maxorder p_in N = min (p_in + 1) N - 1 := by
  rw [burg_effective_maxorder, Nat.mod_eq_of_lt hp]
  have h1 : 1 ≤ min (p_in + 1) N := le_min (by omega) hN
  have h2 : min (p_in + 1) N ≤ p_in + 1 := min_le_left _ _
  omega

/-- Claim C2, evaluated at the failing input N = 0 (empty input), p_in = 1:
the size_t expression min(p_in+1, N)-1 wraps to 2^64 - 1 instead of clamping
to zero, so the output maxorder violates both p ≤ p_in and
0 ≤ p ≤ max(0, N-1), and the maxorder == 0 short-circuit is skipped (the
recursion then runs on the corrupted state).  For every N ≥ 1 the clamp does
behave as the claim says (burg_effective_maxorder_of_pos). -/
theorem burg_maxorder_wrap_at_empty :
    burg_effective_maxorder 1 0 = 2 ^ 64 - 1 ∧
    ¬ burg_effective_maxorder 1 0 ≤ 1 ∧
    ¬ burg_effective_maxorder 1 0 ≤ max 0 (0 - 1) ∧
    (burg_method ([] : List ℚ) 1 false false).maxorder_out = 2 ^ 64 - 1 := by
  have hne : ¬ burg_effective_maxorder 1 0 = 0 := by decide
  refine ⟨by decide, by decide, by decide, ?_⟩
  show (burg_method ([] : List ℚ) 1 false false).maxorder_out = 2 ^ 64 - 1
  simp only [burg_method, List.length_nil]
  rw [if_neg hne]
  decide

/-- Claim C7, evaluated at the failing input N = 0: the mean computation
mean = b[0]/N reads index 0 of the empty auxiliary buffer (an out-of-range
vector access), and the wrapped maxorder is nonzero, so burg_method does not
take the short-circuit return the claim describes. -/
theorem burg_empty_input_out_of_range :
    burg_mean_checked ([] : List ℚ) = none ∧
    burg_effective_maxorder 2 0 = 2 ^ 64 - 1 ∧
    ¬ burg_effective_maxorder 2 0 = 0 := by
  refine ⟨?_, by decide, by decide⟩
  simp [burg_mean_checked, pairwise_buffer, pairwise_pass1, pairwise_pass1_upto,
    pairwise_init, pow2_le, fold_loop]

/-- Claim C4: for every nonempty input, the mean output by burg_method is
exactly (Σ x)/N: the pairwise pass (halving copy into the auxiliary buffer,
then repeated folding from the largest power of two at most N) computes the
sum of the inputs exactly over the rationals. -/
theorem burg_method_mean_exact (xs : List ℚ) (p_in : ℕ) (sm hier : Bool)
    (h : xs ≠ []) :
    (burg_method xs p_in sm hier).mean = xs.sum / (xs.length : ℚ) := by
  have hm : (burg_method xs p_in sm hier).mean = burg_mean xs := by
    rw [burg_method]
    by_cases hc : burg_effective_maxorder p_in xs.length = 0
    · simp only [hc, if_pos]
    · simp only [hc, if_neg, ite_false]
  rw [hm, burg_mean_eq xs h]

/-- Witness for C4 at xs = [1, 2, 3]. -/
theorem burg_method_mean_exact_witness :
    (burg_method [(1 : ℚ), 2, 3] 0 false false).mean =
      ([(1 : ℚ), 2, 3] : List ℚ).sum / (([(1 : ℚ), 2, 3] : List ℚ).length : ℚ) :=
  burg_method_mean_exact [(1 : ℚ), 2, 3] 0 false false (by simp)

/-- Claim C3 counterexample: at xs = [1] (N = 1), p_in = 2 the effective
order is p = 0 and burg_method with hierarchy = false emits no sigma2e and no
gain at all, not the single one the claim promises for every input. -/
theorem burg_nonhier_emits_nothing_at_order_zero :
    (burg_method [(1 : ℚ)] 2 false false).sigma2e = [] ∧
    ¬ (burg_method [(1 : ℚ)] 2 false false).sigma2e.length = 1 ∧
    (burg_method [(1 : ℚ)] 2 false false).gain = [] := by
  have hc : burg_effective_maxorder 2 1 = 0 := by decide
  have hb : burg_method [(1 : ℚ)] 2 false false =
      { mean := burg_mean [(1 : ℚ)], maxorder_out := 0, params := [], sigma2e := [],
        gain := [], autocor := [], ret := 1 } := by
    simp only [burg_method, List.length_singleton, hc, if_pos]
  rw [hb]
  exact ⟨rfl, by simp, rfl⟩

/-! ## Projections of one Burg step -/

theorem burgStep_Ak (N m : ℕ) (hier : Bool) (s : BurgState) (k : ℕ) :
    (burgStep N m hier s k).Ak = burg_sweep_Ak (burg_mu s k) k s.Ak := by
  unfold burgStep
  by_cases hk : k < m <;> simp [hk]

theorem burgStep_sigma2e (N m : ℕ) (hier : Bool) (s : BurgState) (k : ℕ) :
    (burgStep N m hier s k).sigma2e = s.sigma2e * (1 - burg_mu s k * burg_mu s k) := by
  unfold burgStep
  by_cases hk : k < m <;> simp [hk]

theorem burgStep_gain (N m : ℕ) (hier : Bool) (s : BurgState) (k : ℕ) :
    (burgStep N m hier s k).gain = s.gain *
      (1 / (1 - (burg_sweep_Ak (burg_mu s k) k s.Ak).getD k 0 *
        (burg_sweep_Ak (burg_mu s k) k s.Ak).getD k 0)) := by
  unfold burgStep
  by_cases hk : k < m <;> simp [hk]

theorem burgStep_autocor (N m : ℕ) (hier : Bool) (s : BurgState) (k : ℕ) :
    (burgStep N m hier s k).autocor = s.autocor ++
      [-(inner_product s.autocor.reverse ((burg_sweep_Ak (burg_mu s k) k s.Ak).drop 1)
        ((burg_sweep_Ak (burg_mu s k) k s.Ak).getD k 0))] := by
  unfold burgStep
  by_cases hk : k < m <;> simp [hk]

theorem burgStep_f_of_lt (N m : ℕ) (hier : Bool) (s : BurgState) (k : ℕ) (hk : k < m) :
    (burgStep N m hier s k).f = s.f.take k ++
      List.zipWith (fun x y => x - burg_mu s k * y) (s.f.drop k) (s.b.take (N - k)) := by
  unfold burgStep
  simp [hk]

theorem burgStep_b_of_lt (N m : ℕ) (hier : Bool) (s : BurgState) (k : ℕ) (hk : k < m) :
    (burgStep N m hier s k).b =
      List.zipWith (fun y x => y - burg_mu s k * x) (s.b.take (N - k)) (s.f.drop k) ++
      s.b.drop (N - k) := by
  unfold burgStep
  simp [hk]

theorem burgStep_Dk_of_lt (N m : ℕ) (hier : Bool) (s : BurgState) (k : ℕ) (hk : k < m) :
    (burgStep N m hier s k).Dk =
      (1 - burg_mu s k * burg_mu s k) * s.Dk -
      (burgStep N m hier s k).f.getD k 0 * (burgStep N m hier s k).f.getD k 0 -
      (burgStep N m hier s k).b.getD (N - k - 1) 0 *
        (burgStep N m hier s k).b.getD (N - k - 1) 0 := by
  conv_lhs => unfold burgStep
  rw [burgStep_f_of_lt N m hier s k hk, burgStep_b_of_lt N m hier s k hk]
  simp [hk]

theorem burgStep_f_of_ge (N m : ℕ) (hier : Bool) (s : BurgState) (k : ℕ) (hk : ¬ k < m) :
    (burgStep N m hier s k).f = s.f := by
  unfold burgStep
  simp [hk]

theorem burgStep_b_of_ge (N m : ℕ) (hier : Bool) (s : BurgState) (k : ℕ) (hk : ¬ k < m) :
    (burgStep N m hier s k).b = s.b := by
  unfold burgStep
  simp [hk]

theorem burgStep_Dk_of_ge (N m : ℕ) (hier : Bool) (s : BurgState) (k : ℕ) (hk : ¬ k < m) :
    (burgStep N m hier s k).Dk = s.Dk := by
  unfold burgStep
  simp [hk]

theorem burgStep_params_out (N m : ℕ) (hier : Bool) (s : BurgState) (k : ℕ) :
    (burgStep N m hier s k).params_out =
      if hier || k == m then
        s.params_out ++ ((burg_sweep_Ak (burg_mu s k) k s.Ak).drop 1).take k
      else s.params_out := by
  unfold burgStep
  by_cases hk : k < m <;> simp [hk]

theorem burgStep_sigma2e_out (N m : ℕ) (hier : Bool) (s : BurgState) (k : ℕ) :
    (burgStep N m hier s k).sigma2e_out =
      if hier || k == m then s.sigma2e_out ++ [(burgStep N m hier s k).sigma2e]
      else s.sigma2e_out := by
  rw [burgStep_sigma2e]
  unfold burgStep
  by_cases hk : k < m <;> simp [hk]

theorem burgStep_gain_out (N m : ℕ) (hier : Bool) (s : BurgState) (k : ℕ) :
    (burgStep N m hier s k).gain_out =
      if hier || k == m then s.gain_out ++ [(burgStep N m hier s k).gain]
      else s.gain_out := by
  rw [burgStep_gain]
  unfold burgStep
  by_cases hk : k < m <;> simp [hk]

/-! ## The recursion trajectory is independent of the hierarchy flag -/

theorem burgIter_core_indep (N m : ℕ) (h1 h2 : Bool) (s : BurgState) : ∀ j,
    (burgIter N m h1 s j).f = (burgIter N m h2 s j).f ∧
    (burgIter N m h1 s j).b = (burgIter N m h2 s j).b ∧
    (burgIter N m h1 s j).Ak = (burgIter N m h2 s j).Ak ∧
    (burgIter N m h1 s j).sigma2e = (burgIter N m h2 s j).sigma2e ∧
    (burgIter N m h1 s j).gain = (burgIter N m h2 s j).gain ∧
    (burgIter N m h1 s j).Dk = (burgIter N m h2 s j).Dk ∧
    (burgIter N m h1 s j).autocor = (burgIter N m h2 s j).autocor := by
  intro j
  induction j with
  | zero => exact ⟨rfl, rfl, rfl, rfl, rfl, rfl, rfl⟩
  | succ k ih =>
    obtain ⟨hf, hb, hA, hs, hg, hD, ha⟩ := ih
    have hmu : burg_mu (burgIter N m h1 s k) (k + 1) =
        burg_mu (burgIter N m h2 s k) (k + 1) := by
      rw [burg_mu, burg_mu, hf, hb, hD]
    simp only [burgIter]
    have hstepf : (burgStep N m h1 (burgIter N m h1 s k) (k + 1)).f =
        (burgStep N m h2 (burgIter N m h2 s k) (k + 1)).f := by
      by_cases hk : k + 1 < m
      · rw [burgStep_f_of_lt _ _ _ _ _ hk, burgStep_f_of_lt _ _ _ _ _ hk, hmu, hf, hb]
      · rw [burgStep_f_of_ge _ _ _ _ _ hk, burgStep_f_of_ge _ _ _ _ _ hk, hf]
    have hstepb : (burgStep N m h1 (burgIter N m h1 s k) (k + 1)).b =
        (burgStep N m h2 (burgIter N m h2 s k) (k + 1)).b := by
      by_cases hk : k + 1 < m
      · rw [burgStep_b_of_lt _ _ _ _ _ hk, burgStep_b_of_lt _ _ _ _ _ hk, hmu, hf, hb]
      · rw [burgStep_b_of_ge _ _ _ _ _ hk, burgStep_b_of_ge _ _ _ _ _ hk, hb]
    refine ⟨hstepf, hstepb, ?_, ?_, ?_, ?_, ?_⟩
    · rw [burgStep_Ak, burgStep_Ak, hmu, hA]
    · rw [burgStep_sigma2e, burgStep_sigma2e, hmu, hs]
    · rw [burgStep_gain, burgStep_gain, hmu, hA, hg]
    · by_cases hk : k + 1 < m
      · rw [burgStep_Dk_of_lt _ _ _ _ _ hk, burgStep_Dk_of_lt _ _ _ _ _ hk,
          hmu, hD, hstepf, hstepb]
      · rw [burgStep_Dk_of_ge _ _ _ _ _ hk, burgStep_Dk_of_ge _ _ _ _ _ hk, hD]
    · rw [burgStep_autocor, burgStep_autocor, hmu, hA, ha]

/-! ## Buffer lengths along the recursion -/

theorem burg_sweep_Ak_length (mu : ℚ) (k : ℕ) (A : List ℚ) :
    (burg_sweep_Ak mu k A).length = A.length := by
  simp [burg_sweep_Ak]

theorem burgIter_lengths (N m : ℕ) (hier : Bool) (s0 : BurgState)
    (hm : m ≤ N) (hf0 : s0.f.length = N) (hb0 : s0.b.length = N) : ∀ j,
    (burgIter N m hier s0 j).f.length = N ∧ (burgIter N m hier s0 j).b.length = N := by
  intro j
  induction j with
  | zero => exact ⟨hf0, hb0⟩
  | succ k ih =>
    obtain ⟨hf, hb⟩ := ih
    by_cases hk : k + 1 < m
    · constructor
      · show (burgStep N m hier (burgIter N m hier s0 k) (k + 1)).f.length = N
        rw [burgStep_f_of_lt _ _ _ _ _ hk, List.length_append, List.length_take,
          List.length_zipWith, List.length_drop, List.length_take, hf, hb]
        omega
      · show (burgStep N m hier (burgIter N m hier s0 k) (k + 1)).b.length = N
        rw [burgStep_b_of_lt _ _ _ _ _ hk, List.length_append, List.length_zipWith,
          List.length_take, List.length_drop, List.length_drop, hf, hb]
        omega
    · show (burgStep N m hier (burgIter N m hier s0 k) (k + 1)).f.length = N ∧
        (burgStep N m hier (burgIter N m hier s0 k) (k + 1)).b.length = N
      rw [burgStep_f_of_ge _ _ _ _ _ hk, burgStep_b_of_ge _ _ _ _ _ hk]
      exact ⟨hf, hb⟩

theorem burgIter_Ak_length (N m : ℕ) (hier : Bool) (s0 : BurgState) : ∀ j,
    (burgIter N m hier s0 j).Ak.length = s0.Ak.length := by
  intro j
  induction j with
  | zero => rfl
  | succ k ih =>
    show (burgStep N m hier (burgIter N m hier s0 k) (k + 1)).Ak.length = _
    rw [burgStep_Ak, burg_sweep_Ak_length, ih]

theorem burgIter_autocor_length (N m : ℕ) (hier : Bool) (s0 : BurgState) : ∀ j,
    (burgIter N m hier s0 j).autocor.length = s0.autocor.length + j := by
  intro j
  induction j with
  | zero => rfl
  | succ k ih =>
    show (burgStep N m hier (burgIter N m hier s0 k) (k + 1)).autocor.length = _
    rw [burgStep_autocor, List.length_append, ih, List.length_singleton]
    omega

/-! ## What each mode emits -/

theorem burgIter_sigma2e_out_hier (N m : ℕ) (s0 : BurgState) : ∀ j,
    (burgIter N m true s0 j).sigma2e_out = s0.sigma2e_out ++
      (List.range j).map (fun k => (burgIter N m true s0 (k + 1)).sigma2e) := by
  intro j
  induction j with
  | zero => simp [burgIter]
  | succ k ih =>
    show (burgStep N m true (burgIter N m true s0 k) (k + 1)).sigma2e_out = _
    rw [burgStep_sigma2e_out]
    simp only [Bool.true_or, if_pos]
    rw [ih, List.range_succ, List.map_append, List.append_assoc]
    rfl

theorem burgIter_gain_out_hier (N m : ℕ) (s0 : BurgState) : ∀ j,
    (burgIter N m true s0 j).gain_out = s0.gain_out ++
      (List.range j).map (fun k => (burgIter N m true s0 (k + 1)).gain) := by
  intro j
  induction j with
  | zero => simp [burgIter]
  | succ k ih =>
    show (burgStep N m true (burgIter N m true s0 k) (k + 1)).gain_out = _
    rw [burgStep_gain_out]
    simp only [Bool.true_or, if_pos]
    rw [ih, List.range_succ, List.map_append, List.append_assoc]
    rfl

theorem burgIter_params_out_hier_succ (N m : ℕ) (s0 : BurgState) (j : ℕ) :
    (burgIter N m true s0 (j + 1)).params_out = (burgIter N m true s0 j).params_out ++
      (((burgIter N m true s0 (j + 1)).Ak).drop 1).take (j + 1) := by
  have hAk : (burgIter N m true s0 (j + 1)).Ak =
      burg_sweep_Ak (burg_mu (burgIter N m true s0 j) (j + 1)) (j + 1)
        (burgIter N m true s0 j).Ak := by
    show (burgStep N m true (burgIter N m true s0 j) (j + 1)).Ak = _
    rw [burgStep_Ak]
  rw [hAk]
  show (burgStep N m true (burgIter N m true s0 j) (j + 1)).params_out = _
  rw [burgStep_params_out]
  simp only [Bool.true_or, if_pos]

theorem burgIter_out_nonhier (N m : ℕ) (s0 : BurgState) : ∀ j, j < m →
    (burgIter N m false s0 j).params_out = s0.params_out ∧
    (burgIter N m false s0 j).sigma2e_out = s0.sigma2e_out ∧
    (burgIter N m false s0 j).gain_out = s0.gain_out := by
  intro j
  induction j with
  | zero => intro _; exact ⟨rfl, rfl, rfl⟩
  | succ k ih =>
    intro hj
    obtain ⟨hp, hs, hg⟩ := ih (by omega)
    have hbeq : ((k + 1 : ℕ) == m) = false := by
      simp only [beq_eq_false_iff_ne, ne_eq]
      omega
    have hemit : (false || ((k + 1 : ℕ) == m)) = false := by
      rw [Bool.false_or, hbeq]
    refine ⟨?_, ?_, ?_⟩
    · show (burgStep N m false (burgIter N m false s0 k) (k + 1)).params_out = _
      rw [burgStep_params_out, hemit]
      · exact hp
    · show (burgStep N m false (burgIter N m false s0 k) (k + 1)).sigma2e_out = _
      rw [burgStep_sigma2e_out, hemit]
      · exact hs
    · show (burgStep N m false (burgIter N m false s0 k) (k + 1)).gain_out = _
      rw [burgStep_gain_out, hemit]
      · exact hg

theorem burgIter_params_out_hier_length (N m : ℕ) (s0 : BurgState)
    (hA : s0.Ak.length = m + 1) : ∀ j, j ≤ m →
    2 * (burgIter N m true s0 j).params_out.length =
      2 * s0.params_out.length + j * (j + 1) := by
  intro j
  induction j with
  | zero => intro _; simp [burgIter]
  | succ k ih =>
    intro hj
    have h2 := ih (by omega)
    rw [burgIter_params_out_hier_succ, List.length_append]
    have hlen : ((((burgIter N m true s0 (k + 1)).Ak).drop 1).take (k + 1)).length = k + 1 := by
      rw [List.length_take, List.length_drop, burgIter_Ak_length, hA]
      omega
    rw [hlen]
    nlinarith [h2]

theorem burgIter_params_out_hier_prefix (N m : ℕ) (s0 : BurgState) (j1 j2 : ℕ)
    (h : j1 ≤ j2) : ∃ t, (burgIter N m true s0 j2).params_out =
      (burgIter N m true s0 j1).params_out ++ t := by
  induction j2, h using Nat.le_induction with
  | base => exact ⟨[], by simp⟩
  | succ n hn ih =>
    obtain ⟨t, ht⟩ := ih
    refine ⟨t ++ ((((burgIter N m true s0 (n + 1)).Ak).drop 1).take (n + 1)), ?_⟩
    rw [burgIter_params_out_hier_succ, ht, List.append_assoc]

theorem burgIter_sigma2e_out_hier_getD (N m : ℕ) (s0 : BurgState)
    (hs0 : s0.sigma2e_out = []) (j k : ℕ) (hk : k < j) :
    ((burgIter N m true s0 j).sigma2e_out).getD k 0 =
      (burgIter N m true s0 (k + 1)).sigma2e := by
  rw [burgIter_sigma2e_out_hier, hs0, List.nil_append]
  simp [List.getD, List.getElem?_range, hk]

theorem burgIter_gain_out_hier_getD (N m : ℕ) (s0 : BurgState)
    (hs0 : s0.gain_out = []) (j k : ℕ) (hk : k < j) :
    ((burgIter N m true s0 j).gain_out).getD k 0 =
      (burgIter N m true s0 (k + 1)).gain := by
  rw [burgIter_gain_out_hier, hs0, List.nil_append]
  simp [List.getD, List.getElem?_range, hk]

theorem burgIter_params_out_block (N m : ℕ) (s0 : BurgState)
    (hA : s0.Ak.length = m + 1) (hs0 : s0.params_out = []) (k j : ℕ)
    (hk1 : 1 ≤ k) (hkj : k ≤ j) (hj : j ≤ m) :
    (((burgIter N m true s0 j).params_out).drop (k * (k - 1) / 2)).take k =
      (((burgIter N m true s0 k).Ak).drop 1).take k := by
  obtain ⟨t, ht⟩ := burgIter_params_out_hier_prefix N m s0 k j hkj
  have hL2 : 2 * (burgIter N m true s0 (k - 1)).params_out.length = (k - 1) * k := by
    have h := burgIter_params_out_hier_length N m s0 hA (k - 1) (by omega)
    rw [hs0] at h
    simp only [List.length_nil, Nat.mul_zero, Nat.zero_add] at h
    rw [h]
    congr 1
    omega
  have hL : k * (k - 1) / 2 = (burgIter N m true s0 (k - 1)).params_out.length := by
    have hcomm : k * (k - 1) = 2 * (burgIter N m true s0 (k - 1)).params_out.length := by
      rw [hL2, Nat.mul_comm]
    set a := k * (k - 1) with ha
    omega
  have hsucc := burgIter_params_out_hier_succ N m s0 (k - 1)
  have hk' : k - 1 + 1 = k := by omega
  rw [hk'] at hsucc
  have hblock : ((((burgIter N m true s0 k).Ak).drop 1).take k).length = k := by
    rw [List.length_take, List.length_drop, burgIter_Ak_length, hA]
    omega
  rw [ht, hsucc, List.append_assoc, List.drop_left' hL.symm, List.take_left' hblock]

theorem burg_init_Ak_length (xs : List ℚ) (p_in : ℕ) (sm : Bool) :
    (burg_init xs p_in sm).Ak.length =
      burg_effective_maxorder p_in xs.length + 1 := by
  simp [burg_init]

theorem burg_init_outs (xs : List ℚ) (p_in : ℕ) (sm : Bool) :
    (burg_init xs p_in sm).params_out = [] ∧
    (burg_init xs p_in sm).sigma2e_out = [] ∧
    (burg_init xs p_in sm).gain_out = [] ∧
    (burg_init xs p_in sm).autocor = [] := by
  refine ⟨rfl, rfl, rfl, rfl⟩

theorem burg_method_of_ne_zero (xs : List ℚ) (p_in : ℕ) (sm hier : Bool)
    (h : ¬ burg_effective_maxorder p_in xs.length = 0) :
    burg_method xs p_in sm hier =
      { mean := burg_mean xs
      , maxorder_out := burg_effective_maxorder p_in xs.length
      , params := (burgIter xs.length (burg_effective_maxorder p_in xs.length) hier
          (burg_init xs p_in sm) (burg_effective_maxorder p_in xs.length)).params_out
      , sigma2e := (burgIter xs.length (burg_effective_maxorder p_in xs.length) hier
          (burg_init xs p_in sm) (burg_effective_maxorder p_in xs.length)).sigma2e_out
      , gain := (burgIter xs.length (burg_effective_maxorder p_in xs.length) hier
          (burg_init xs p_in sm) (burg_effective_maxorder p_in xs.length)).gain_out
      , autocor := (burgIter xs.length (burg_effective_maxorder p_in xs.length) hier
          (burg_init xs p_in sm) (burg_effective_maxorder p_in xs.length)).autocor
      , ret := xs.length } := by
  simp only [burg_method, h, if_neg, ite_false]

theorem burgIter_out_nonhier_last (N n : ℕ) (s0 : BurgState) :
    (burgIter N (n + 1) false s0 (n + 1)).params_out = s0.params_out ++
      (((burgIter N (n + 1) false s0 (n + 1)).Ak).drop 1).take (n + 1) ∧
    (burgIter N (n + 1) false s0 (n + 1)).sigma2e_out = s0.sigma2e_out ++
      [(burgIter N (n + 1) false s0 (n + 1)).sigma2e] ∧
    (burgIter N (n + 1) false s0 (n + 1)).gain_out = s0.gain_out ++
      [(burgIter N (n + 1) false s0 (n + 1)).gain] := by
  obtain ⟨hnp, hns, hng⟩ := burgIter_out_nonhier N (n + 1) s0 n (by omega)
  have hemit : (false || ((n + 1 : ℕ) == (n + 1))) = true := by simp
  have hAk : (burgIter N (n + 1) false s0 (n + 1)).Ak =
      burg_sweep_Ak (burg_mu (burgIter N (n + 1) false s0 n) (n + 1)) (n + 1)
        (burgIter N (n + 1) false s0 n).Ak := by
    show (burgStep N (n + 1) false (burgIter N (n + 1) false s0 n) (n + 1)).Ak = _
    rw [burgStep_Ak]
  refine ⟨?_, ?_, ?_⟩
  · rw [hAk]
    show (burgStep N (n + 1) false (burgIter N (n + 1) false s0 n) (n + 1)).params_out = _
    rw [burgStep_params_out, hemit, if_pos rfl, hnp]
  · show (burgStep N (n + 1) false (burgIter N (n + 1) false s0 n) (n + 1)).sigma2e_out = _
    rw [burgStep_sigma2e_out, hemit, if_pos rfl, hns]
    rfl
  · show (burgStep N (n + 1) false (burgIter N (n + 1) false s0 n) (n + 1)).gain_out = _
    rw [burgStep_gain_out, hemit, if_pos rfl, hng]
    rfl

/-- Claim C3, amended to runs with a nonempty input and effective order
p ≥ 1 (at p = 0 neither mode emits anything, and at N = 0 the maxorder wrap
corrupts the run): with hierarchy = false, burg_method emits exactly p AR
coefficients, one σ²ₑ and one gain, equal to the final AR(p) block, the last
σ²ₑ and the last gain of the identical call with hierarchy = true; the latter
emits p(p+1)/2 coefficients grouped as AR(1)…AR(p), with the AR(k) block equal
to a₁…aₖ of the k-th state of the recursion, and p σ²ₑ and gain values; the p
emitted autocorrelations are identical in both modes. -/
theorem burg_hierarchy_emission (xs : List ℚ) (p_in : ℕ) (sm : Bool)
    (hN : 1 ≤ xs.length) (hpin : p_in + 1 < 2 ^ 64)
    (hp : 1 ≤ burg_effective_maxorder p_in xs.length) :
    (burg_method xs p_in sm false).params.length =
      burg_effective_maxorder p_in xs.length ∧
    (burg_method xs p_in sm false).sigma2e.length = 1 ∧
    (burg_method xs p_in sm false).gain.length = 1 ∧
    2 * (burg_method xs p_in sm true).params.length =
      burg_effective_maxorder p_in xs.length *
        (burg_effective_maxorder p_in xs.length + 1) ∧
    (burg_method xs p_in sm true).params.length =
      burg_effective_maxorder p_in xs.length *
        (burg_effective_maxorder p_in xs.length + 1) / 2 ∧
    (burg_method xs p_in sm true).sigma2e.length =
      burg_effective_maxorder p_in xs.length ∧
    (burg_method xs p_in sm true).gain.length =
      burg_effective_maxorder p_in xs.length ∧
    (burg_method xs p_in sm false).params = (burg_method xs p_in sm true).params.drop
      (burg_effective_maxorder p_in xs.length *
        (burg_effective_maxorder p_in xs.length - 1) / 2) ∧
    (burg_method xs p_in sm false).sigma2e =
      [(burg_method xs p_in sm true).sigma2e.getD
        (burg_effective_maxorder p_in xs.length - 1) 0] ∧
    (burg_method xs p_in sm false).gain =
      [(burg_method xs p_in sm true).gain.getD
        (burg_effective_maxorder p_in xs.length - 1) 0] ∧
    (burg_method xs p_in sm false).autocor = (burg_method xs p_in sm true).autocor ∧
    (burg_method xs p_in sm false).autocor.length =
      burg_effective_maxorder p_in xs.length ∧
    (∀ k, 1 ≤ k → k ≤ burg_effective_maxorder p_in xs.length →
      ((burg_method xs p_in sm true).params.drop (k * (k - 1) / 2)).take k =
        (((burgIter xs.length (burg_effective_maxorder p_in xs.length) true
          (burg_init xs p_in sm) k).Ak).drop 1).take k) := by
  have hA := burg_init_Ak_length xs p_in sm
  have hBn := burg_method_of_ne_zero xs p_in sm false (by omega)
  have hBt := burg_method_of_ne_zero xs p_in sm true (by omega)
  obtain ⟨m, hmdef⟩ : ∃ m, burg_effective_maxorder p_in xs.length = m := ⟨_, rfl⟩
  rw [hmdef] at hp hA hBn hBt ⊢
  have hPn : (burg_method xs p_in sm false).params =
      (burgIter xs.length m false (burg_init xs p_in sm) m).params_out := by
    rw [hBn]
  have hSn : (burg_method xs p_in sm false).sigma2e =
      (burgIter xs.length m false (burg_init xs p_in sm) m).sigma2e_out := by
    rw [hBn]
  have hGn : (burg_method xs p_in sm false).gain =
      (burgIter xs.length m false (burg_init xs p_in sm) m).gain_out := by
    rw [hBn]
  have hCn : (burg_method xs p_in sm false).autocor =
      (burgIter xs.length m false (burg_init xs p_in sm) m).autocor := by
    rw [hBn]
  have hPt : (burg_method xs p_in sm true).params =
      (burgIter xs.length m true (burg_init xs p_in sm) m).params_out := by
    rw [hBt]
  have hSt : (burg_method xs p_in sm true).sigma2e =
      (burgIter xs.length m true (burg_init xs p_in sm) m).sigma2e_out := by
    rw [hBt]
  have hGt : (burg_method xs p_in sm true).gain =
      (burgIter xs.length m true (burg_init xs p_in sm) m).gain_out := by
    rw [hBt]
  have hCt : (burg_method xs p_in sm true).autocor =
      (burgIter xs.length m true (burg_init xs p_in sm) m).autocor := by
    rw [hBt]
  rw [hPn, hSn, hGn, hCn, hPt, hSt, hGt, hCt]
  obtain ⟨n, rfl⟩ : ∃ n, m = n + 1 := ⟨m - 1, by omega⟩
  obtain ⟨hip, his, hig, hia⟩ := burg_init_outs xs p_in sm
  obtain ⟨hcf, hcb, hcA, hcs, hcg, hcD, hca⟩ :=
    burgIter_core_indep xs.length (n + 1) false true (burg_init xs p_in sm) (n + 1)
  obtain ⟨hFp, hFs, hFg⟩ := burgIter_out_nonhier_last xs.length n (burg_init xs p_in sm)
  rw [hip, List.nil_append] at hFp
  rw [his, List.nil_append] at hFs
  rw [hig, List.nil_append] at hFg
  have h11 : n + 1 - 1 = n := rfl
  have hRn : (burgIter xs.length (n + 1) false (burg_init xs p_in sm) (n + 1)).params_out =
      (((burgIter xs.length (n + 1) true (burg_init xs p_in sm) (n + 1)).Ak).drop 1).take
        (n + 1) := by
    rw [hFp, hcA]
  have hRnlen :
      (burgIter xs.length (n + 1) false (burg_init xs p_in sm) (n + 1)).params_out.length =
        n + 1 := by
    rw [hRn, List.length_take, List.length_drop, burgIter_Ak_length, hA]
    omega
  have hlenT2 : 2 * (burgIter xs.length (n + 1) true (burg_init xs p_in sm)
      (n + 1)).params_out.length = (n + 1) * (n + 1 + 1) := by
    have h := burgIter_params_out_hier_length xs.length (n + 1) (burg_init xs p_in sm) hA
      (n + 1) (le_refl _)
    rw [hip] at h
    simpa using h
  have hlenTs : (burgIter xs.length (n + 1) true (burg_init xs p_in sm)
      (n + 1)).sigma2e_out.length = n + 1 := by
    rw [burgIter_sigma2e_out_hier, his, List.nil_append, List.length_map,
      List.length_range]
  have hlenTg : (burgIter xs.length (n + 1) true (burg_init xs p_in sm)
      (n + 1)).gain_out.length = n + 1 := by
    rw [burgIter_gain_out_hier, hig, List.nil_append, List.length_map, List.length_range]
  have hblockT := burgIter_params_out_block xs.length (n + 1) (burg_init xs p_in sm) hA hip
    (n + 1) (n + 1) (by omega) (le_refl _) (le_refl _)
  have hrel : (n + 1) * (n + 1 + 1) = (n + 1) * (n + 1 - 1) + 2 * (n + 1) := by
    rw [h11]
    ring
  have hdrop : ((burgIter xs.length (n + 1) true (burg_init xs p_in sm)
      (n + 1)).params_out.drop ((n + 1) * (n + 1 - 1) / 2)).length ≤ n + 1 := by
    rw [List.length_drop]
    have h2 := hlenT2
    set a := (n + 1) * (n + 1 - 1) with hadef
    set b := (n + 1) * (n + 1 + 1) with hbdef
    omega
  refine ⟨hRnlen, by rw [hFs]; rfl, by rw [hFg]; rfl, hlenT2, ?_, hlenTs, hlenTg,
    ?_, ?_, ?_, hca, ?_, ?_⟩
  · have h2 := hlenT2
    set a := (n + 1) * (n + 1 + 1) with hadef
    omega
  · rw [hRn, ← hblockT, List.take_of_length_le hdrop]
  · rw [hFs, hcs, ← burgIter_sigma2e_out_hier_getD xs.length (n + 1)
      (burg_init xs p_in sm) his (n + 1) n (by omega), h11]
  · rw [hFg, hcg, ← burgIter_gain_out_hier_getD xs.length (n + 1)
      (burg_init xs p_in sm) hig (n + 1) n (by omega), h11]
  · rw [hca, burgIter_autocor_length, hia]
    simp
  · intro k hk1 hk2
    exact burgIter_params_out_block xs.length (n + 1) (burg_init xs p_in sm) hA hip
      k (n + 1) hk1 hk2 (le_refl _)

/-- Witness for C3 at xs = [1, 2, 3], p_in = 2 (effective order p = 2). -/
theorem burg_hierarchy_emission_witness :
    (burg_method [(1 : ℚ), 2, 3] 2 false false).params.length =
      burg_effective_maxorder 2 ([(1 : ℚ), 2, 3] : List ℚ).length ∧
    (burg_method [(1 : ℚ), 2, 3] 2 false false).sigma2e.length = 1 ∧
    (burg_method [(1 : ℚ), 2, 3] 2 false false).gain.length = 1 ∧
    2 * (burg_method [(1 : ℚ), 2, 3] 2 false true).params.length =
      burg_effective_maxorder 2 ([(1 : ℚ), 2, 3] : List ℚ).length *
        (burg_effective_maxorder 2 ([(1 : ℚ), 2, 3] : List ℚ).length + 1) ∧
    (burg_method [(1 : ℚ), 2, 3] 2 false true).params.length =
      burg_effective_maxorder 2 ([(1 : ℚ), 2, 3] : List ℚ).length *
        (burg_effective_maxorder 2 ([(1 : ℚ), 2, 3] : List ℚ).length + 1) / 2 ∧
    (burg_method [(1 : ℚ), 2, 3] 2 false true).sigma2e.length =
      burg_effective_maxorder 2 ([(1 : ℚ), 2, 3] : List ℚ).length ∧
    (burg_method [(1 : ℚ), 2, 3] 2 false true).gain.length =
      burg_effective_maxorder 2 ([(1 : ℚ), 2, 3] : List ℚ).length ∧
    (burg_method [(1 : ℚ), 2, 3] 2 false false).params =
      (burg_method [(1 : ℚ), 2, 3] 2 false true).params.drop
        (burg_effective_maxorder 2 ([(1 : ℚ), 2, 3] : List ℚ).length *
          (burg_effective_maxorder 2 ([(1 : ℚ), 2, 3] : List ℚ).length - 1) / 2) ∧
    (burg_method [(1 : ℚ), 2, 3] 2 false false).sigma2e =
      [(burg_method [(1 : ℚ), 2, 3] 2 false true).sigma2e.getD
        (burg_effective_maxorder 2 ([(1 : ℚ), 2, 3] : List ℚ).length - 1) 0] ∧
    (burg_method [(1 : ℚ), 2, 3] 2 false false).gain =
      [(burg_method [(1 : ℚ), 2, 3] 2 false true).gain.getD
        (burg_effective_maxorder 2 ([(1 : ℚ), 2, 3] : List ℚ).length - 1) 0] ∧
    (burg_method [(1 : ℚ), 2, 3] 2 false false).autocor =
      (burg_method [(1 : ℚ), 2, 3] 2 false true).autocor ∧
    (burg_method [(1 : ℚ), 2, 3] 2 false false).autocor.length =
      burg_effective_maxorder 2 ([(1 : ℚ), 2, 3] : List ℚ).length ∧
    (∀ k, 1 ≤ k → k ≤ burg_effective_maxorder 2 ([(1 : ℚ), 2, 3] : List ℚ).length →
      ((burg_method [(1 : ℚ), 2, 3] 2 false true).params.drop (k * (k - 1) / 2)).take k =
        (((burgIter ([(1 : ℚ), 2, 3] : List ℚ).length
          (burg_effective_maxorder 2 ([(1 : ℚ), 2, 3] : List ℚ).length) true
          (burg_init [(1 : ℚ), 2, 3] 2 false) k).Ak).drop 1).take k) :=
  burg_hierarchy_emission [(1 : ℚ), 2, 3] 2 false (by simp) (by decide) (by decide)

/-! ## Sum-of-squares algebra for the Dk invariant -/

theorem sumsq_cons (x : ℚ) (l : List ℚ) : sumsq (x :: l) = x * x + sumsq l := by
  simp [sumsq]

theorem sumsq_nonneg (l : List ℚ) : 0 ≤ sumsq l := by
  induction l with
  | nil => simp [sumsq]
  | cons x l ih =>
    rw [sumsq_cons]
    have := mul_self_nonneg x
    linarith

theorem dotp_cons (x y : ℚ) (X Y : List ℚ) :
    dotp (x :: X) (y :: Y) = x * y + dotp X Y := by
  simp [dotp]

theorem dotp_self (l : List ℚ) : dotp l l = sumsq l := by
  induction l with
  | nil => rfl
  | cons x l ih => rw [dotp_cons, sumsq_cons, ih]

theorem dotp_take (X : List ℚ) : ∀ (Y : List ℚ) (n : ℕ), X.length ≤ n →
    dotp X (Y.take n) = dotp X Y := by
  induction X with
  | nil => intro Y n _; simp [dotp]
  | cons x X ih =>
    intro Y n h
    cases Y with
    | nil => simp [dotp]
    | cons y Y =>
      cases n with
      | zero => simp at h
      | succ n =>
        rw [List.take_succ_cons, dotp_cons, dotp_cons, ih Y n (by simpa using h)]

theorem sumsq_zip_sub_pair (c : ℚ) : ∀ (X Y : List ℚ), X.length = Y.length →
    sumsq (List.zipWith (fun x y => x - c * y) X Y) +
      sumsq (List.zipWith (fun y x => y - c * x) Y X) =
    (1 + c * c) * (sumsq X + sumsq Y) - 4 * c * dotp X Y := by
  intro X
  induction X with
  | nil =>
    intro Y h
    have : Y = [] := List.length_eq_zero.mp (by simpa using h.symm)
    subst this
    simp [sumsq, dotp]
  | cons x X ih =>
    intro Y h
    cases Y with
    | nil => simp at h
    | cons y Y =>
      have hlen : X.length = Y.length := by simpa using h
      simp only [List.zipWith_cons_cons, sumsq_cons, dotp_cons]
      linear_combination ih Y hlen

theorem sumsq_zip_sub_one (X : List ℚ) : ∀ (Y : List ℚ), X.length = Y.length →
    sumsq (List.zipWith (fun x y => x - y) X Y) = sumsq X + sumsq Y - 2 * dotp X Y := by
  induction X with
  | nil =>
    intro Y h
    have : Y = [] := List.length_eq_zero.mp (by simpa using h.symm)
    subst this
    simp [sumsq, dotp]
  | cons x X ih =>
    intro Y h
    cases Y with
    | nil => simp at h
    | cons y Y =>
      have hlen : X.length = Y.length := by simpa using h
      simp only [List.zipWith_cons_cons, sumsq_cons, dotp_cons]
      linear_combination ih Y hlen

theorem sumsq_zip_add (X : List ℚ) : ∀ (Y : List ℚ), X.length = Y.length →
    sumsq (List.zipWith (fun x y => x + y) X Y) = sumsq X + sumsq Y + 2 * dotp X Y := by
  induction X with
  | nil =>
    intro Y h
    have : Y = [] := List.length_eq_zero.mp (by simpa using h.symm)
    subst this
    simp [sumsq, dotp]
  | cons x X ih =>
    intro Y h
    cases Y with
    | nil => simp at h
    | cons y Y =>
      have hlen : X.length = Y.length := by simpa using h
      simp only [List.zipWith_cons_cons, sumsq_cons, dotp_cons]
      linear_combination ih Y hlen

theorem two_dotp_bounds (X Y : List ℚ) (h : X.length = Y.length) :
    2 * dotp X Y ≤ sumsq X + sumsq Y ∧ -(sumsq X + sumsq Y) ≤ 2 * dotp X Y := by
  constructor
  · have h1 := sumsq_nonneg (List.zipWith (fun x y => x - y) X Y)
    rw [sumsq_zip_sub_one X Y h] at h1
    linarith
  · have h2 := sumsq_nonneg (List.zipWith (fun x y => x + y) X Y)
    rw [sumsq_zip_add X Y h] at h2
    linarith

theorem sumsq_head_drop (l : List ℚ) (h : l ≠ []) :
    sumsq l = l.getD 0 0 * l.getD 0 0 + sumsq (l.drop 1) := by
  cases l with
  | nil => exact absurd rfl h
  | cons x xs => simp [sumsq_cons]

theorem sumsq_take_last : ∀ (l : List ℚ), l ≠ [] →
    sumsq l = sumsq (l.take (l.length - 1)) +
      l.getD (l.length - 1) 0 * l.getD (l.length - 1) 0 := by
  intro l
  induction l with
  | nil => intro h; exact absurd rfl h
  | cons x xs ih =>
    intro _
    cases xs with
    | nil => simp [sumsq]
    | cons y ys =>
      have hne : (y :: ys) ≠ [] := by simp
      have htake : (x :: y :: ys).take ((x :: y :: ys).length - 1) =
          x :: (y :: ys).take ((y :: ys).length - 1) := by
        show (x :: y :: ys).take (ys.length + 1) = _
        rw [List.take_succ_cons]
        rfl
      have hget : (x :: y :: ys).getD ((x :: y :: ys).length - 1) 0 =
          (y :: ys).getD ((y :: ys).length - 1) 0 := by
        show (x :: y :: ys).getD (ys.length + 1) 0 = _
        rw [List.getD_cons_succ]
        rfl
      rw [htake, hget, sumsq_cons x ((y :: ys).take ((y :: ys).length - 1)),
        sumsq_cons x (y :: ys), ih hne]
      ring

/-! ## The reflection coefficient is bounded while Dk carries the residual
energy -/

theorem burg_mu_eq_dotp (N : ℕ) (s : BurgState) (kp1 : ℕ) (hf : s.f.length = N) :
    burg_mu s kp1 = 2 * dotp (s.f.drop kp1) (s.b.take (N - kp1)) / s.Dk := by
  rw [burg_mu, inner_product_eq_dotp, zero_add,
    ← dotp_take (s.f.drop kp1) s.b (N - kp1) (by rw [List.length_drop, hf])]
  ring

theorem burg_mu_mul_Dk (N : ℕ) (s : BurgState) (kp1 : ℕ) (hf : s.f.length = N)
    (hne : s.Dk ≠ 0) :
    burg_mu s kp1 * s.Dk = 2 * dotp (s.f.drop kp1) (s.b.take (N - kp1)) := by
  rw [burg_mu_eq_dotp N s kp1 hf]
  exact div_mul_cancel₀ _ hne

theorem burg_mu_sq_le_one (N : ℕ) (s : BurgState) (kp1 : ℕ)
    (hf : s.f.length = N) (hb : s.b.length = N)
    (hD : s.Dk = sumsq (s.f.drop kp1) + sumsq (s.b.take (N - kp1)))
    (hne : s.Dk ≠ 0) :
    burg_mu s kp1 * burg_mu s kp1 ≤ 1 := by
  have hlen : (s.f.drop kp1).length = (s.b.take (N - kp1)).length := by
    rw [List.length_drop, List.length_take, hf, hb]
    omega
  obtain ⟨hub, hlb⟩ := two_dotp_bounds _ _ hlen
  rw [← hD] at hub hlb
  have hDnn : 0 ≤ s.Dk := by
    rw [hD]
    have h1 := sumsq_nonneg (s.f.drop kp1)
    have h2 := sumsq_nonneg (s.b.take (N - kp1))
    linarith
  have hDpos : 0 < s.Dk := lt_of_le_of_ne hDnn (Ne.symm hne)
  rw [burg_mu_eq_dotp N s kp1 hf, div_mul_div_comm, div_le_one (mul_pos hDpos hDpos)]
  nlinarith [hub, hlb]

/-! ## The Dk recursion tracks the forward and backward residual energies -/

theorem drop_append_succ (l₁ l₂ : List ℚ) (n : ℕ) (h : l₁.length = n) :
    (l₁ ++ l₂).drop (n + 1) = l₂.drop 1 := by
  subst h
  induction l₁ with
  | nil => rfl
  | cons x xs ih => exact ih

theorem burgStep_Dk_sumsq (N m : ℕ) (hier : Bool) (s : BurgState) (kp1 : ℕ)
    (hkm : kp1 < m) (hkN : kp1 < N)
    (hf : s.f.length = N) (hb : s.b.length = N)
    (hD : s.Dk = sumsq (s.f.drop kp1) + sumsq (s.b.take (N - kp1)))
    (hne : s.Dk ≠ 0) :
    (burgStep N m hier s kp1).Dk =
      sumsq ((burgStep N m hier s kp1).f.drop (kp1 + 1)) +
      sumsq ((burgStep N m hier s kp1).b.take (N - (kp1 + 1))) := by
  have hfstep := burgStep_f_of_lt N m hier s kp1 hkm
  have hbstep := burgStep_b_of_lt N m hier s kp1 hkm
  have hDstep := burgStep_Dk_of_lt N m hier s kp1 hkm
  have hlenX : (s.f.drop kp1).length = N - kp1 := by rw [List.length_drop, hf]
  have hlenY : (s.b.take (N - kp1)).length = N - kp1 := by
    rw [List.length_take, hb]
    omega
  have hlenXY : (s.f.drop kp1).length = (s.b.take (N - kp1)).length := by omega
  have hlenZ1 : (List.zipWith (fun x y => x - burg_mu s kp1 * y) (s.f.drop kp1)
      (s.b.take (N - kp1))).length = N - kp1 := by
    rw [List.length_zipWith]
    omega
  have hlenZ2 : (List.zipWith (fun y x => y - burg_mu s kp1 * x) (s.b.take (N - kp1))
      (s.f.drop kp1)).length = N - kp1 := by
    rw [List.length_zipWith]
    omega
  have hlentake : (s.f.take kp1).length = kp1 := by
    rw [List.length_take, hf]
    omega
  have hpos : 1 ≤ N - kp1 := by omega
  have hE1 : (burgStep N m hier s kp1).f.getD kp1 0 =
      (List.zipWith (fun x y => x - burg_mu s kp1 * y) (s.f.drop kp1)
        (s.b.take (N - kp1))).getD 0 0 := by
    rw [hfstep, getD_append_right _ _ kp1 (by rw [hlentake]), hlentake, Nat.sub_self]
  have hE2 : (burgStep N m hier s kp1).b.getD (N - kp1 - 1) 0 =
      (List.zipWith (fun y x => y - burg_mu s kp1 * x) (s.b.take (N - kp1))
        (s.f.drop kp1)).getD (N - kp1 - 1) 0 := by
    rw [hbstep, getD_append_left _ _ _ (by rw [hlenZ2]; omega)]
  have hfdrop : (burgStep N m hier s kp1).f.drop (kp1 + 1) =
      (List.zipWith (fun x y => x - burg_mu s kp1 * y) (s.f.drop kp1)
        (s.b.take (N - kp1))).drop 1 := by
    rw [hfstep]
    exact drop_append_succ _ _ kp1 hlentake
  have hbtake : (burgStep N m hier s kp1).b.take (N - (kp1 + 1)) =
      (List.zipWith (fun y x => y - burg_mu s kp1 * x) (s.b.take (N - kp1))
        (s.f.drop kp1)).take (N - (kp1 + 1)) := by
    rw [hbstep]
    exact List.take_append_of_le_length (by rw [hlenZ2]; omega)
  have hpair := sumsq_zip_sub_pair (burg_mu s kp1) (s.f.drop kp1)
    (s.b.take (N - kp1)) hlenXY
  have hdot := burg_mu_mul_Dk N s kp1 hf hne
  have hZ1ne : (List.zipWith (fun x y => x - burg_mu s kp1 * y) (s.f.drop kp1)
      (s.b.take (N - kp1))) ≠ [] := by
    intro hc
    have hc2 := congrArg List.length hc
    rw [hlenZ1] at hc2
    simp at hc2
    omega
  have hZ2ne : (List.zipWith (fun y x => y - burg_mu s kp1 * x) (s.b.take (N - kp1))
      (s.f.drop kp1)) ≠ [] := by
    intro hc
    have hc2 := congrArg List.length hc
    rw [hlenZ2] at hc2
    simp at hc2
    omega
  have hhead := sumsq_head_drop _ hZ1ne
  have hlast := sumsq_take_last _ hZ2ne
  rw [hlenZ2] at hlast
  rw [hDstep, hE1, hE2, hfdrop, hbtake,
    show N - (kp1 + 1) = N - kp1 - 1 from by omega]
  linear_combination hhead + hlast - hpair +
    (1 + burg_mu s kp1 * burg_mu s kp1) * hD - 2 * burg_mu s kp1 * hdot

theorem burg_Dk_invariant (N m : ℕ) (hier : Bool) (s0 : BurgState)
    (hN : 1 ≤ N) (hmN : m ≤ N - 1)
    (hf0 : s0.f.length = N) (hb0 : s0.b.length = N)
    (hD0 : s0.Dk = sumsq (s0.f.drop 1) + sumsq (s0.b.take (N - 1))) :
    ∀ j, j + 1 ≤ m → (∀ i, i < j → (burgIter N m hier s0 i).Dk ≠ 0) →
    (burgIter N m hier s0 j).Dk =
      sumsq ((burgIter N m hier s0 j).f.drop (j + 1)) +
      sumsq ((burgIter N m hier s0 j).b.take (N - (j + 1))) := by
  intro j
  induction j with
  | zero =>
    intro _ _
    exact hD0
  | succ k ih =>
    intro hk hDk
    obtain ⟨hfl, hbl⟩ := burgIter_lengths N m hier s0 (by omega) hf0 hb0 k
    have hprev := ih (by omega) (fun i hi => hDk i (by omega))
    exact burgStep_Dk_sumsq N m hier (burgIter N m hier s0 k) (k + 1)
      (by omega) (by omega) hfl hbl hprev (hDk k (by omega))

/-! ## σ²ₑ stays nonnegative and nonincreasing while Dk is nonzero -/

theorem burg_sigma2e_chain (N m : ℕ) (hier : Bool) (s0 : BurgState)
    (hN : 1 ≤ N) (hmN : m ≤ N - 1)
    (hf0 : s0.f.length = N) (hb0 : s0.b.length = N)
    (hD0 : s0.Dk = sumsq (s0.f.drop 1) + sumsq (s0.b.take (N - 1)))
    (hs0 : 0 ≤ s0.sigma2e)
    (hDall : ∀ i, i < m → (burgIter N m hier s0 i).Dk ≠ 0) :
    ∀ j, j ≤ m → 0 ≤ (burgIter N m hier s0 j).sigma2e ∧
      (1 ≤ j → (burgIter N m hier s0 j).sigma2e ≤
        (burgIter N m hier s0 (j - 1)).sigma2e) := by
  intro j
  induction j with
  | zero =>
    intro _
    exact ⟨hs0, fun h => absurd h (by omega)⟩
  | succ k ih =>
    intro hk
    obtain ⟨hknn, _⟩ := ih (by omega)
    obtain ⟨hfl, hbl⟩ := burgIter_lengths N m hier s0 (by omega) hf0 hb0 k
    have hinv := burg_Dk_invariant N m hier s0 hN hmN hf0 hb0 hD0 k hk
      (fun i hi => hDall i (by omega))
    have hmusq := burg_mu_sq_le_one N (burgIter N m hier s0 k) (k + 1) hfl hbl hinv
      (hDall k (by omega))
    have hstep : (burgIter N m hier s0 (k + 1)).sigma2e =
        (burgIter N m hier s0 k).sigma2e *
          (1 - burg_mu (burgIter N m hier s0 k) (k + 1) *
            burg_mu (burgIter N m hier s0 k) (k + 1)) := by
      show (burgStep N m hier (burgIter N m hier s0 k) (k + 1)).sigma2e = _
      rw [burgStep_sigma2e]
    have hmunn := mul_self_nonneg (burg_mu (burgIter N m hier s0 k) (k + 1))
    constructor
    · rw [hstep]
      have h1 : 0 ≤ 1 - burg_mu (burgIter N m hier s0 k) (k + 1) *
          burg_mu (burgIter N m hier s0 k) (k + 1) := by linarith
      exact mul_nonneg hknn h1
    · intro _
      have hk1 : k + 1 - 1 = k := rfl
      rw [hk1, hstep]
      nlinarith [hknn, hmunn]

/-! ## The initial state of the recursion -/

theorem burg_init_f (xs : List ℚ) (p_in : ℕ) (sm : Bool) :
    (burg_init xs p_in sm).f =
      if sm then xs.map (fun x => x - burg_mean xs) else xs := rfl

theorem burg_init_b (xs : List ℚ) (p_in : ℕ) (sm : Bool) :
    (burg_init xs p_in sm).b = (burg_init xs p_in sm).f := rfl

theorem burg_init_f_length (xs : List ℚ) (p_in : ℕ) (sm : Bool) :
    (burg_init xs p_in sm).f.length = xs.length := by
  cases sm <;> simp [burg_init_f]

theorem burg_init_sigma2e_eq (xs : List ℚ) (p_in : ℕ) (sm : Bool) :
    (burg_init xs p_in sm).sigma2e =
      inner_product (burg_init xs p_in sm).f (burg_init xs p_in sm).f 0 /
        (xs.length : ℚ) := rfl

theorem burg_init_sigma2e_nonneg (xs : List ℚ) (p_in : ℕ) (sm : Bool) :
    0 ≤ (burg_init xs p_in sm).sigma2e := by
  rw [burg_init_sigma2e_eq, inner_product_eq_dotp, zero_add, dotp_self]
  exact div_nonneg (sumsq_nonneg _) (Nat.cast_nonneg _)

theorem burg_init_Dk_eq (xs : List ℚ) (p_in : ℕ) (sm : Bool) :
    (burg_init xs p_in sm).Dk =
      -((burg_init xs p_in sm).f.getD 0 0 * (burg_init xs p_in sm).f.getD 0 0) -
        (burg_init xs p_in sm).f.getD (xs.length - 1) 0 *
          (burg_init xs p_in sm).f.getD (xs.length - 1) 0 +
        2 * inner_product (burg_init xs p_in sm).f (burg_init xs p_in sm).f 0 := rfl

theorem burg_init_Dk_sumsq (xs : List ℚ) (p_in : ℕ) (sm : Bool) (h : 1 ≤ xs.length) :
    (burg_init xs p_in sm).Dk =
      sumsq ((burg_init xs p_in sm).f.drop 1) +
      sumsq ((burg_init xs p_in sm).b.take (xs.length - 1)) := by
  have hlen := burg_init_f_length xs p_in sm
  have hne : (burg_init xs p_in sm).f ≠ [] := by
    intro hc
    have hc2 := congrArg List.length hc
    rw [hlen, List.length_nil] at hc2
    omega
  rw [burg_init_Dk_eq, burg_init_b, inner_product_eq_dotp, zero_add, dotp_self]
  have hhead := sumsq_head_drop _ hne
  have hlast := sumsq_take_last _ hne
  rw [hlen] at hlast
  linarith

/-! ## Claim C1 -/

/-- Claim C1: in hierarchy mode, under exact rational arithmetic, for every
order k with 1 ≤ k < p (p the effective maximum order) and provided Dk is
nonzero at every step, the σ²ₑ emitted at order k+1 (index k of the emitted
list) is ≤ the σ²ₑ emitted at order k (index k-1), both are nonnegative, and
each step multiplies σ²ₑ by exactly (1 - μ²). Stated for nonempty input and
p_in + 1 below the size_t wrap (the N = 0 case is the subject of C2/C7). -/
theorem burg_hierarchy_sigma2e_monotone (xs : List ℚ) (p_in : ℕ) (sm : Bool) (k : ℕ)
    (hN : 1 ≤ xs.length) (hpin : p_in + 1 < 2 ^ 64)
    (hD : ∀ j, j < burg_effective_maxorder p_in xs.length →
      (burgIter xs.length (burg_effective_maxorder p_in xs.length) true
        (burg_init xs p_in sm) j).Dk ≠ 0)
    (hk1 : 1 ≤ k) (hkp : k < burg_effective_maxorder p_in xs.length) :
    (burg_method xs p_in sm true).sigma2e.getD k 0 ≤
      (burg_method xs p_in sm true).sigma2e.getD (k - 1) 0 ∧
    0 ≤ (burg_method xs p_in sm true).sigma2e.getD k 0 ∧
    0 ≤ (burg_method xs p_in sm true).sigma2e.getD (k - 1) 0 ∧
    (burg_method xs p_in sm true).sigma2e.getD k 0 =
      (burg_method xs p_in sm true).sigma2e.getD (k - 1) 0 *
        (1 - burg_mu (burgIter xs.length (burg_effective_maxorder p_in xs.length) true
            (burg_init xs p_in sm) k) (k + 1) *
          burg_mu (burgIter xs.length (burg_effective_maxorder p_in xs.length) true
            (burg_init xs p_in sm) k) (k + 1)) := by
  have hBt := burg_method_of_ne_zero xs p_in sm true (by omega)
  have hmax := burg_effective_maxorder_of_pos p_in xs.length hN hpin
  obtain ⟨m, hmdef⟩ : ∃ m, burg_effective_maxorder p_in xs.length = m := ⟨_, rfl⟩
  rw [hmdef] at hD hkp hBt hmax ⊢
  have hS : (burg_method xs p_in sm true).sigma2e =
      (burgIter xs.length m true (burg_init xs p_in sm) m).sigma2e_out := by
    rw [hBt]
  rw [hS]
  have hmN : m ≤ xs.length - 1 := by
    have h1 : min (p_in + 1) xs.length ≤ xs.length := min_le_right _ _
    omega
  have hout := (burg_init_outs xs p_in sm).2.1
  rw [burgIter_sigma2e_out_hier_getD xs.length m (burg_init xs p_in sm) hout m k hkp,
    burgIter_sigma2e_out_hier_getD xs.length m (burg_init xs p_in sm) hout m (k - 1)
      (by omega)]
  have hk1' : k - 1 + 1 = k := by omega
  rw [hk1']
  have hfl := burg_init_f_length xs p_in sm
  have hbl : (burg_init xs p_in sm).b.length = xs.length := by
    rw [burg_init_b, hfl]
  have hD0 := burg_init_Dk_sumsq xs p_in sm hN
  have hs0 := burg_init_sigma2e_nonneg xs p_in sm
  have hchain := burg_sigma2e_chain xs.length m true (burg_init xs p_in sm) hN hmN
    hfl hbl hD0 hs0 hD
  obtain ⟨hnn1, hmono1⟩ := hchain (k + 1) (by omega)
  obtain ⟨hnn0, _⟩ := hchain k (by omega)
  have hmono := hmono1 (by omega)
  have hk2 : k + 1 - 1 = k := rfl
  rw [hk2] at hmono
  refine ⟨hmono, hnn1, hnn0, ?_⟩
  show (burgStep xs.length m true (burgIter xs.length m true (burg_init xs p_in sm) k)
    (k + 1)).sigma2e = _
  rw [burgStep_sigma2e]

/-- Claim C1 witness: at xs = [1,2,3], p_in = 2 (effective order p = 2),
k = 1, with both Dk values nonzero, the emitted σ²ₑ at order 2 is ≤ the one
at order 1, both are nonnegative and the ratio is exactly (1 - μ²). -/
theorem burg_hierarchy_sigma2e_monotone_witness :
    (burg_method [(1 : ℚ), 2, 3] 2 false true).sigma2e.getD 1 0 ≤
      (burg_method [(1 : ℚ), 2, 3] 2 false true).sigma2e.getD 0 0 ∧
    0 ≤ (burg_method [(1 : ℚ), 2, 3] 2 false true).sigma2e.getD 1 0 ∧
    0 ≤ (burg_method [(1 : ℚ), 2, 3] 2 false true).sigma2e.getD 0 0 ∧
    (burg_method [(1 : ℚ), 2, 3] 2 false true).sigma2e.getD 1 0 =
      (burg_method [(1 : ℚ), 2, 3] 2 false true).sigma2e.getD 0 0 *
        (1 - burg_mu (burgIter 3 2 true (burg_init [(1 : ℚ), 2, 3] 2 false) 1) 2 *
          burg_mu (burgIter 3 2 true (burg_init [(1 : ℚ), 2, 3] 2 false) 1) 2) := by
  exact burg_hierarchy_sigma2e_monotone [(1 : ℚ), 2, 3] 2 false 1 (by simp) (by decide)
    (by
      intro j hj
      have h2 : burg_effective_maxorder 2 ([(1 : ℚ), 2, 3] : List ℚ).length = 2 := by
        decide
      rw [h2] at hj
      show (burgIter 3 2 true (burg_init [(1 : ℚ), 2, 3] 2 false) j).Dk ≠ 0
      interval_cases j
      · norm_num [burgIter, burg_init, inner_product]
      · norm_num [burgIter, burgStep, burg_mu, burg_init, inner_product,
          burg_sweep_Ak, List.range_succ])
    (le_refl 1) (by decide)
